import Mathlib

/-!
Verification of the mpc-cli cryptographic core against its specification.

The Rust sources are shallowly embedded: arbitrary-precision unsigned
integers (`BigUint`) become `Nat`, signed integers (`BigInt`) become `Int`,
byte strings become `List Nat` (each entry a byte value), fallible
operations return `Except`/`Option`, and every source of randomness or
external input (sampled values, hash digests, Miller-Rabin bases) becomes
an explicit argument so that the embedded functions are pure and
executable.  The SHA-512/256 compression itself is kept abstract as a
function argument `sha : List Nat → List Nat`; the byte stream fed to it
is modelled exactly.
-/

namespace MpcCli

/-! ## Byte encodings (num-bigint `to_bytes_be`, `from_bytes_be`,
`to_signed_bytes_be`, `from_signed_bytes_be`, and `u64::to_le_bytes`). -/

/-- Executable bit length (`BigUint::bits`): 0 for zero, otherwise
`floor(log2 x) + 1`; the first argument is recursion fuel. -/
def bitLenGo : Nat → Nat → Nat
  | 0, _ => 0
  | fuel + 1, m => if m = 0 then 0 else bitLenGo fuel (m / 2) + 1

def bitLen (m : Nat) : Nat := bitLenGo m m

/-- Big-endian interpretation of a byte list (`BigUint::from_bytes_be`). -/
def fromBytesBE (l : List Nat) : Nat :=
  l.foldl (fun a b => a * 256 + b) 0

/-- Fixed-width big-endian byte representation: `natBytesBE k v` is the
low `k` bytes of `v`, most significant first. -/
def natBytesBE : Nat → Nat → List Nat
  | 0, _ => []
  | k + 1, v => natBytesBE k (v / 256) ++ [v % 256]

/-- Minimal big-endian byte representation of a `Nat`
(`BigUint::to_bytes_be`); zero is encoded as the single byte `0`. -/
def toBytesBE (v : Nat) : List Nat :=
  natBytesBE (if v = 0 then 1 else (Nat.size v + 7) / 8) v

/-- Little-endian bytes, least significant first (`u64::to_le_bytes` when
the width is 8). -/
def natBytesLE : Nat → Nat → List Nat
  | 0, _ => []
  | k + 1, v => v % 256 :: natBytesLE k (v / 256)

/-- The 8-byte little-endian encoding of a length counter. -/
def le64 (v : Nat) : List Nat := natBytesLE 8 v

/-- Byte length of the minimal two's-complement representation used by
`BigInt::to_signed_bytes_be`. -/
def intByteLen (v : Int) : Nat :=
  if 0 ≤ v then Nat.size v.toNat / 8 + 1 else Nat.size ((-v).toNat - 1) / 8 + 1

/-- Minimal two's-complement big-endian bytes (`BigInt::to_signed_bytes_be`). -/
def toSignedBytesBE (v : Int) : List Nat :=
  natBytesBE (intByteLen v) (v % ((2 : Int) ^ (8 * intByteLen v))).toNat

/-- Two's-complement interpretation of a big-endian byte list
(`BigInt::from_signed_bytes_be`). -/
def fromSignedBytesBE (l : List Nat) : Int :=
  if 128 ≤ l.headD 0 then (fromBytesBE l : Int) - (2 : Int) ^ (8 * l.length)
  else (fromBytesBE l : Int)

/-! ## Error types.  `CommonError` and `CryptoError` in the sources wrap a
message string built by a named constructor; we model them as inductive
types with one constructor per message shape. -/

inductive CommonErr where
  | wrongLengthBytes
  | divisionByZero
  | outOfRange (value : Nat)
  | invalidArgument (value : Nat)
  deriving DecidableEq

inductive CryptoErr where
  | wrongLengthBytes
  | tooManyCommitmentParts (got : Nat)
  | commitmentPartTooLarge (got : Nat)
  | secretsTooFew (got : Nat)
  | secretsTooLarge (got : Nat)
  | secretsInvalidPartLength (got : Nat)
  | dlnProofInvalidLength (got : Nat)
  | needPrimes
  | messageTooLong
  | messageMalformed
  | common (e : CommonErr)
  deriving DecidableEq

/-! ## ModInt (common/src/mod_int.rs), over the `num_modular` primitives
`addm`, `subm`, `mulm`, `powm`, `invm`: all produce canonical
representatives below the modulus. -/

/-- ModInt::add. -/
def modAdd (m x y : Nat) : Nat := (x + y) % m

/-- ModInt::sub (`subm`: add the complement of `y` mod `m`). -/
def modSub (m x y : Nat) : Nat := (x % m + (m - y % m)) % m

/-- ModInt::mul. -/
def modMul (m x y : Nat) : Nat := (x * y) % m

/-- ModInt::pow (`powm`). -/
def modPow (m x y : Nat) : Nat := (x ^ y) % m

/-- ModInt::div: truncated integer quotient, then reduced by
`addm(0, m)`. -/
def modDiv (m x y : Nat) : Except CommonErr Nat :=
  if y = 0 then .error .divisionByZero else .ok ((x / y + 0) % m)

/-- ModInt::mod_inverse (`invm`): the unique inverse below the modulus
when it exists, `none` otherwise (matching `gcd(x, m) = 1`). -/
def modInverse (m x : Nat) : Option Nat :=
  (List.range m).find? fun y => (x * y) % m == 1 % m

/-! ## Secrets packing (crypto/src/commitment.rs). -/

def PARTS_CAP : Nat := 3

def MAX_PART_SIZE : Nat := 1 * 1024 * 1024

/-- Secrets::build.  The source folds each part through a
`flat_map` over `Result`, which silently skips a part whose
`Err` is produced (a `Result` iterates over zero or one items), so an
oversized part is dropped rather than reported. -/
def secretsBuild (parts : List (List Nat)) : Except CryptoErr (List Nat) :=
  if parts.length > PARTS_CAP then
    .error (.tooManyCommitmentParts parts.length)
  else
    .ok ((parts.filterMap fun ps =>
      if ps.length > MAX_PART_SIZE then none else some (ps.length :: ps)).flatten)

/-- One iteration step of Secrets::parse's `while` loop; the fuel is an
upper bound on the number of iterations (each iteration removes at least
the leading length header). -/
def secretsParseGo : Nat → List Nat → List (List Nat) →
    Except CryptoErr (List (List Nat))
  | _, [], parts => .ok parts
  | 0, _ :: _, _ => .error (.secretsTooFew 0)
  | fuel + 1, first :: ss, parts =>
    if parts.length ≥ PARTS_CAP then
      .error (.tooManyCommitmentParts (parts.length + 1))
    else if 2 ^ 64 ≤ first then
      .error (.secretsInvalidPartLength first)
    else if first > MAX_PART_SIZE then
      .error (.secretsTooLarge first)
    else if first > ss.length then
      .error (.secretsInvalidPartLength first)
    else
      secretsParseGo fuel (ss.drop first) (parts ++ [ss.take first])

/-- Secrets::parse.  The `to_usize` conversion of a declared length fails
above `usize::MAX`, modelled by the `2 ^ 64` test inside the loop. -/
def secretsParse (ss : List Nat) : Except CryptoErr (List (List Nat)) :=
  if ss.length < 2 then .error (.secretsTooFew ss.length)
  else secretsParseGo ss.length ss []

/-! ## Fiat-Shamir hashing (crypto/src/hash.rs).  The SHA-512/256
compression is abstract: `sha : List Nat → List Nat` maps the byte stream
accumulated by the hasher's `update` calls to a 32-byte digest.  The
functions below model exactly which bytes are fed to the hasher and in
which order. -/

/-- The byte stream fed to the hasher by `sha512_256` when no tag is
given: the `update` calls are folded left to right — first the 8-byte
little-endian input count, then for each input the input itself, the
single `'$'` delimiter byte, and the 8-byte little-endian input length. -/
def hashStreamNoTag (srcs : List (List Nat)) : List Nat :=
  srcs.foldl (fun acc s => acc ++ s ++ [36] ++ le64 s.length) (le64 srcs.length)

/-- The byte stream fed to the hasher by `sha512_256`: with a tag, the
digest of the tag (hashed through the untagged layout) is fed twice
before the untagged stream of the inputs. -/
def hashStream (sha : List Nat → List Nat) (tag : Option (List Nat))
    (srcs : List (List Nat)) : List Nat :=
  match tag with
  | some t => sha (hashStreamNoTag [t]) ++ sha (hashStreamNoTag [t]) ++ hashStreamNoTag srcs
  | none => hashStreamNoTag srcs

/-- sha512_256 (crypto/src/hash.rs): digest of the accumulated stream. -/
def sha512_256 (sha : List Nat → List Nat) (tag : Option (List Nat))
    (srcs : List (List Nat)) : List Nat :=
  sha (hashStream sha tag srcs)

/-- The big-endian magnitude encoding used by `sha512_256i`: zero becomes
the empty byte string, otherwise `to_bytes_be`. -/
def intBytes (x : Nat) : List Nat :=
  if x = 0 then [] else toBytesBE x

/-- sha512_256i: hash a list of integers via their magnitude encodings. -/
def sha512_256i (sha : List Nat → List Nat) (tag : Option (List Nat))
    (srcs : List Nat) : List Nat :=
  sha512_256 sha tag (srcs.map intBytes)

/-- hash_sha512_256 (public, untagged byte-level entry point). -/
def hashSha512_256 (sha : List Nat → List Nat) (srcs : List (List Nat)) : List Nat :=
  sha512_256 sha none srcs

/-- hash_sha512_256i. -/
def hashSha512_256i (sha : List Nat → List Nat) (srcs : List Nat) : List Nat :=
  sha512_256i sha none srcs

/-- hash_sha512_256i_tagged. -/
def hashSha512_256iTagged (sha : List Nat → List Nat) (tag : List Nat)
    (srcs : List Nat) : List Nat :=
  sha512_256i sha (some tag) srcs

/-- rejection_sample: interpret the digest as a big-endian integer and
reduce it mod `q`. -/
def rejectionSample (q : Nat) (digest : List Nat) : Nat :=
  fromBytesBE digest % q

/-- Written from the spec's words (§4.3 / C3), for comparison with the
embedding of the source: "the digest is computed over: an optional domain
tag (itself pre-hashed and injected twice when present), the 8-byte
little-endian count of inputs, then for each input its bytes, a single
`'$'` delimiter byte, and its 8-byte little-endian length"; each integer
input is encoded as its big-endian magnitude, zero as the empty string. -/
def specChallengeStream (sha : List Nat → List Nat) (tag : Option (List Nat))
    (ints : List Nat) : List Nat :=
  let inputs := ints.map intBytes
  let body := le64 inputs.length ++
    (inputs.map fun s => s ++ [36] ++ le64 s.length).flatten
  match tag with
  | some t =>
      let hashedTag := sha (le64 1 ++ t ++ [36] ++ le64 t.length)
      hashedTag ++ hashedTag ++ body
  | none => body

/-! ## Miller-Rabin primality (common/src/miller_rabin.rs and
common/src/prime.rs `miller_rabin` module).  The sampled bases are passed
explicitly: the source draws `reps - 1` uniform values below `n - 3`,
adds 2 to each, and fixes the final base to 2. -/

def PRIMES_AS_BIT_MASK : Nat :=
  1 <<< 2 ||| 1 <<< 3 ||| 1 <<< 5 ||| 1 <<< 7 ||| 1 <<< 11 ||| 1 <<< 13 |||
  1 <<< 17 ||| 1 <<< 19 ||| 1 <<< 23 ||| 1 <<< 29 ||| 1 <<< 31 ||| 1 <<< 37 |||
  1 <<< 41 ||| 1 <<< 43 ||| 1 <<< 47 ||| 1 <<< 53 ||| 1 <<< 59 ||| 1 <<< 61

def PRIMES_A_MEMBERS : List Nat := [3, 5, 7, 11, 13, 17, 19, 23, 37]

def PRIMES_B_MEMBERS : List Nat := [29, 31, 41, 43, 47, 53]

def PRIMES_A : Nat := PRIMES_A_MEMBERS.foldl (fun acc p => acc * p) 1

def PRIMES_B : Nat := PRIMES_B_MEMBERS.foldl (fun acc p => acc * p) 1

def PRIMES_AB : Nat := PRIMES_A * PRIMES_B % 2 ^ 64

/-- Executable integer square root (`BigUint::sqrt`): the greatest `r`
with `r * r ≤ n`. -/
def intSqrt (n : Nat) : Nat :=
  Nat.findGreatest (fun r => r * r ≤ n) n

/-- Trailing zero count with explicit fuel (`BigUint::trailing_zeros`,
`None` for zero mapped to 0 by `unwrap_or`). -/
def trailingZerosGo : Nat → Nat → Nat
  | 0, _ => 0
  | fuel + 1, m => if m % 2 = 1 ∨ m = 0 then 0 else trailingZerosGo fuel (m / 2) + 1

def trailingZeros (m : Nat) : Nat := trailingZerosGo m m

/-- The squaring loop of `probably_prime_miller_rabin` — faithfully
including the source's `y.sqrt()` (integer square root) where the
classical algorithm squares; it runs `k - 1` times and exits early on
`n - 1` (pass) or `1` (fail). -/
def mrLoop (n nm1 : Nat) : Nat → Nat → Bool
  | 0, _ => false
  | count + 1, y =>
      let y' := intSqrt y % n
      if y' = nm1 then true
      else if y' = 1 then false
      else mrLoop n nm1 count y'

/-- The per-base test of `probably_prime_miller_rabin`. -/
def mrBaseTest (n nm1 k q x : Nat) : Bool :=
  let y := modPow n x q
  if y = 1 ∨ y = nm1 then true
  else mrLoop n nm1 (k - 1) y

/-- probably_prime_miller_rabin over an explicit base list. -/
def probablyPrimeMillerRabin (n : Nat) (bases : List Nat) : Bool :=
  let nm1 := n - 1
  let k := trailingZeros nm1
  let q := nm1 >>> k
  bases.all (mrBaseTest n nm1 k q)

/-- The base list sampled for `reps = rands.length + 1` repetitions: each
random draw is shifted by 2 and the last base is fixed to 2. -/
def mrBases (rands : List Nat) : List Nat :=
  rands.map (fun r => r + 2) ++ [2]

/-- is_prime (common/src/miller_rabin.rs): bit-mask below 64, then
even rejection, then trial division against the two small-prime
products, then Miller-Rabin. -/
def isPrime (x : Nat) (bases : List Nat) : Bool :=
  if bitLen x ≤ 6 then
    decide (PRIMES_AS_BIT_MASK &&& (1 <<< x) ≠ 0)
  else if x % 2 = 0 then
    false
  else
    let r := x % PRIMES_AB
    let ra := r % PRIMES_A
    let rb := r % PRIMES_B
    if PRIMES_A_MEMBERS.any (fun m => ra % m = 0) ||
        PRIMES_B_MEMBERS.any (fun m => rb % m = 0) then
      false
    else
      probablyPrimeMillerRabin x bases

/-- The classical strong-probable-prime test (the property C8 names):
writing `n - 1 = 2 ^ k * q` with `q` odd, base `a` passes when
`a ^ q ≡ 1` or `a ^ (2 ^ i * q) ≡ n - 1` for some `i < k`. -/
def strongProbablePrime (n a : Nat) : Prop :=
  a ^ ((n - 1) >>> trailingZeros (n - 1)) % n = 1 % n ∨
  ∃ i < trailingZeros (n - 1),
    a ^ (2 ^ i * ((n - 1) >>> trailingZeros (n - 1))) % n = (n - 1) % n

/-! ## ProofMod (crypto/src/proof/mod_proof.rs). -/

def ITERATIONS_MOD : Nat := 80

structure ProofModS where
  w : Nat
  x : List Nat
  a : Nat
  b : Nat
  z : List Nat
  deriving DecidableEq

/-- ProofMod::is_quadratic_residue — note the source tests
`jacobi(a, b) < 0`, i.e. it is true exactly on non-residues. -/
def isQuadraticResidue (a b : Nat) : Bool :=
  decide (jacobiSym a b < 0)

/-- ProofMod::mk_ys: iteratively hash the growing transcript
`[w, n, y_1, ..., y_{i-1}]` under the session tag and rejection-sample
each digest into `[0, n)`. -/
def mkYsGo (sha : List Nat → List Nat) (session : List Nat) (n : Nat) :
    Nat → List Nat → List Nat
  | 0, _ => []
  | k + 1, ys =>
      let v := rejectionSample n (hashSha512_256iTagged sha session ys)
      v :: mkYsGo sha session n k (ys ++ [v])

def mkYs (sha : List Nat → List Nat) (session : List Nat) (n w : Nat) : List Nat :=
  mkYsGo sha session n ITERATIONS_MOD [w, n]

/-- `BigUint::set_bit`. -/
def setBit (x i : Nat) (b : Bool) : Nat :=
  if b then x ||| (1 <<< i)
  else if x.testBit i then x ^^^ (1 <<< i) else x

/-- The search over the four sign/twist combinations `j = 0..3` in
ProofMod::new (`_a = j & 1`, `_b = (j & 2) >> 1`), returning the first
combination that satisfies the source's residue test. -/
def findCombo (n p q w yi : Nat) : Option (Nat × Bool × Bool) :=
  let ok := fun yv => isQuadraticResidue yv p && isQuadraticResidue yv q
  let yv0 := yi
  let yv1 := modSub n 0 yi
  let yv2 := modMul n w yi
  let yv3 := modMul n w (modSub n 0 yi)
  if ok yv0 then some (yv0, false, false)
  else if ok yv1 then some (yv1, true, false)
  else if ok yv2 then some (yv2, false, true)
  else if ok yv3 then some (yv3, true, true)
  else none

/-- The iteration of ProofMod::new over the challenge list, accumulating
`x`, `z` and the two bit-vectors. -/
def newModLoop (n p q w expo invN : Nat) :
    List Nat → Nat → Nat → Nat → List Nat × List Nat × Nat × Nat
  | [], _, a, b => ([], [], a, b)
  | yi :: rest, i, a, b =>
      match findCombo n p q w yi with
      | some (yv, fa, fb) =>
          let xi := modPow n yv expo
          let zi := modPow n yi invN
          let r := newModLoop n p q w expo invN rest (i + 1) (setBit a i fa) (setBit b i fb)
          (xi :: r.1, zi :: r.2.1, r.2.2)
      | none =>
          let r := newModLoop n p q w expo invN rest (i + 1) a b
          (0 :: r.1, 0 :: r.2.1, r.2.2)

/-- ProofMod::new with the sampled non-residue `w` passed explicitly;
`none` models the error path of the `phi`-inverse of `n`. -/
def newModProof (sha : List Nat → List Nat) (session : List Nat)
    (n p q w : Nat) : Option ProofModS :=
  let phi := (p - 1) * (q - 1)
  match modInverse phi n with
  | none => none
  | some invN =>
      let ys := mkYs sha session n w
      let expo := modMul phi ((phi + 4) >>> 3) ((phi + 4) >>> 3)
      let r := newModLoop n p q w expo invN ys 0 (1 <<< ITERATIONS_MOD) (1 <<< ITERATIONS_MOD)
      some ⟨w, r.1, r.2.2.1, r.2.2.2, r.2.1⟩

/-- ProofMod::verify; `mrRands` is the randomness drawn by the inner
`is_prime(n, Some(30))` call. -/
def verifyModProof (sha : List Nat → List Nat) (session : List Nat)
    (mrRands : List Nat) (n : Nat) (pf : ProofModS) : Bool :=
  if isQuadraticResidue pf.w n then false
  else if pf.w < n then false
  else if pf.z.any (fun v => v < n) then false
  else if pf.x.any (fun v => v < n) then false
  else if bitLen pf.a ≠ ITERATIONS_MOD + 1 then false
  else if bitLen pf.b ≠ ITERATIONS_MOD + 1 then false
  else if ¬n.testBit 0 then false
  else if probablyPrimeMillerRabin n (mrBases mrRands) then false
  else
    let ys := mkYs sha session n pf.w
    (List.range ITERATIONS_MOD).all fun i =>
      let xi := pf.x.getD i 0
      let yi := ys.getD i 0
      let zi := pf.z.getD i 0
      if modPow n zi n ≠ yi then false
      else
        let yv1 := if pf.a.testBit i then modSub n 0 yi else yi
        let yv2 := if pf.b.testBit i then modMul n pf.w yv1 else yv1
        decide (modPow n xi 4 = yv2)

/-! ## Paillier (crypto/src/paillier.rs). -/

structure EncryptedMessage where
  cypher : Nat
  randomness : Nat
  deriving DecidableEq

structure PrivKey where
  p : Nat
  q : Nat
  n : Nat
  phiN : Nat
  lambdaN : Nat
  deriving DecidableEq

/-- The key assembled by PrivateKey::generate from the ordered safe-prime
pair. -/
def mkPrivKey (p q : Nat) : PrivKey :=
  { p := p, q := q, n := p * q, phiN := (p - 1) * (q - 1),
    lambdaN := (p - 1) * (q - 1) / Nat.gcd (p - 1) (q - 1) }

/-- PrivateKey::gen_pq over an explicit stream of generated safe-prime
pairs: each candidate is ordered so the larger comes first, and the first
pair whose difference has at least `bitLen - 3` bits wins. -/
def genPQ (bits : Nat) (cands : List (Nat × Nat)) : Option (Nat × Nat) :=
  (cands.map fun c => if c.1 > c.2 then (c.1, c.2) else (c.2, c.1)).find?
    fun pq => bits - 3 ≤ bitLen (pq.1 - pq.2)

/-- PrivateKey::generate. -/
def generateKey (bits : Nat) (cands : List (Nat × Nat)) : Option PrivKey :=
  (genPQ (bits / 2) cands).map fun pq => mkPrivKey pq.1 pq.2

/-- The postcondition of `GermainSafePrime::generate(bits)`: the
safe prime is a prime of exactly `bits` bits whose companion
`(p - 1) / 2` is prime; the fixed top bits and low bit make it odd. -/
def GermainSafePrimePost (bits p : Nat) : Prop :=
  Nat.Prime p ∧ Nat.Prime ((p - 1) / 2) ∧ bitLen p = bits ∧ p % 2 = 1

/-- PublicKey::encrypt with the sampled coprime randomness `r` passed
explicitly. -/
def encrypt (n m r : Nat) : Except CryptoErr EncryptedMessage :=
  if n ≤ m then .error .messageTooLong
  else
    let n2 := n * n
    .ok { cypher := modMul n2 (modPow n2 (n + 1) m) (modPow n2 r n), randomness := r }

/-- PrivateKey::decrypt. -/
def decrypt (key : PrivKey) (c : Nat) : Except CryptoErr Nat :=
  let n2 := key.n * key.n
  if n2 ≤ c then .error .messageTooLong
  else if 1 < Nat.gcd c n2 then .error .messageMalformed
  else
    let lc := (modPow n2 c key.lambdaN - 1) / key.n
    let lg := (modPow n2 (key.n + 1) key.lambdaN - 1) / key.n
    match modInverse key.n lg with
    | none => .error (.common .divisionByZero)
    | some inv => .ok (modMul key.n lc inv)

/-- PublicKey::homo_mult. -/
def homoMult (n k c1 : Nat) : Nat :=
  modPow (n ^ 2) (c1 % n ^ 2) (k % n)

/-- PublicKey::homo_add. -/
def homoAdd (n c1 c2 : Nat) : Nat :=
  modMul (n ^ 2) (c1 % n ^ 2) (c2 % n ^ 2)

/-! ## Wire serialization (ProofFac 11 fields, ProofMod 163 fields, DLN
proof via the Secrets packing). -/

structure ProofFacS where
  p : Nat
  q : Nat
  a : Nat
  b : Nat
  t : Nat
  sigma : Nat
  z1 : Nat
  z2 : Nat
  w1 : Nat
  w2 : Nat
  v : Int
  deriving DecidableEq

def isNonEmptyAll (l : List (List Nat)) : Bool :=
  !l.isEmpty && l.all fun v => !v.isEmpty

/-- `From<ProofFac> for [Bytes; 11]`. -/
def proofFacToBytes (pf : ProofFacS) : List (List Nat) :=
  [toBytesBE pf.p, toBytesBE pf.q, toBytesBE pf.a, toBytesBE pf.b, toBytesBE pf.t,
   toBytesBE pf.sigma, toBytesBE pf.z1, toBytesBE pf.z2, toBytesBE pf.w1,
   toBytesBE pf.w2, toSignedBytesBE pf.v]

/-- `TryFrom<[Bytes; 11]> for ProofFac` (the fixed arity is enforced by
the array type; a list of any other length is rejected here). -/
def proofFacFromBytes (l : List (List Nat)) : Except CommonErr ProofFacS :=
  match l with
  | [b0, b1, b2, b3, b4, b5, b6, b7, b8, b9, b10] =>
      if isNonEmptyAll [b0, b1, b2, b3, b4, b5, b6, b7, b8, b9, b10] then
        .ok ⟨fromBytesBE b0, fromBytesBE b1, fromBytesBE b2, fromBytesBE b3,
          fromBytesBE b4, fromBytesBE b5, fromBytesBE b6, fromBytesBE b7,
          fromBytesBE b8, fromBytesBE b9, fromSignedBytesBE b10⟩
      else .error .wrongLengthBytes
  | _ => .error .wrongLengthBytes

/-- `From<ProofMod> for [Bytes; 163]`. -/
def proofModToBytes (pm : ProofModS) : List (List Nat) :=
  [toBytesBE pm.w] ++ pm.x.map toBytesBE ++ [toBytesBE pm.a, toBytesBE pm.b] ++
    pm.z.map toBytesBE

/-- `TryFrom<[Bytes; 163]> for ProofMod`. -/
def proofModFromBytes (l : List (List Nat)) : Except CommonErr ProofModS :=
  if l.length = 163 then
    if isNonEmptyAll l then
      .ok ⟨fromBytesBE (l.getD 0 []), ((l.drop 1).take 80).map fromBytesBE,
        fromBytesBE (l.getD 81 []), fromBytesBE (l.getD 82 []),
        ((l.drop 83).take 80).map fromBytesBE⟩
    else .error .wrongLengthBytes
  else .error .wrongLengthBytes

structure DlnProof where
  alpha : List Nat
  t : List Nat
  deriving DecidableEq

def DLN_LENGTH : Nat := 128

/-- Proof::marshal (crypto/src/proof.rs): pack the two iteration groups
through Secrets::build and serialize each packed integer. -/
def dlnMarshal (pf : DlnProof) : Except CryptoErr (List (List Nat)) :=
  (secretsBuild [pf.alpha, pf.t]).map fun s => s.map toBytesBE

/-- Proof::unmarshal. -/
def dlnUnmarshal (bzs : List (List Nat)) : Except CryptoErr DlnProof :=
  match secretsParse (bzs.map fromBytesBE) with
  | .error e => .error e
  | .ok parsed =>
      match parsed with
      | [b0, b1] =>
          if b0.length = DLN_LENGTH then
            if b1.length = DLN_LENGTH then .ok ⟨b0, b1⟩
            else .error (.dlnProofInvalidLength b1.length)
          else .error (.dlnProofInvalidLength b0.length)
      | _ => .error (.dlnProofInvalidLength parsed.length)

/-! ## Concrete instances and helper definitions used by witnesses. -/

/-- The flat packed form of a part list when no part is oversized; equal
to the payload of a successful Secrets::build. -/
def secretsPack (parts : List (List Nat)) : List Nat :=
  (parts.map fun ps => ps.length :: ps).flatten

/-- A concrete digest function instance: a compression function that
returns the all-zero 32-byte digest for every input. -/
def constZeroDigest : List Nat → List Nat := fun _ => List.replicate 32 0

/-- The proof produced by ProofMod::new for `n = 35 = 7 * 5`,
non-residue sample `w = 2`, under the all-zero digest function. -/
def pfZero35 : ProofModS :=
  ⟨2, List.replicate 80 0, 2 ^ 80, 2 ^ 80, List.replicate 80 0⟩

/-- A proof object that ProofMod::verify accepts for `n = 9` under the
all-zero digest function, although its `w` is not a non-residue. -/
def pfNine : ProofModS :=
  ⟨10, List.replicate 80 9, 2 ^ 80, 2 ^ 80, List.replicate 80 9⟩

/-- Twenty-nine draws for the `is_prime(n, Some(30))` call inside
ProofMod::verify (each below `n - 3`). -/
def mrRandsNine : List Nat := List.replicate 29 2

/-! ## Lemmas and claim theorems. -/

theorem fromBytesBE_append_singleton (l : List Nat) (b : Nat) :
    fromBytesBE (l ++ [b]) = fromBytesBE l * 256 + b := by
  simp [fromBytesBE, List.foldl_append]

theorem fromBytesBE_natBytesBE (k v : Nat) :
    fromBytesBE (natBytesBE k v) = v % 256 ^ k := by
  induction k generalizing v with
  | zero => simp [natBytesBE, fromBytesBE, Nat.mod_one]
  | succ k ih =>
      rw [natBytesBE, fromBytesBE_append_singleton, ih]
      rw [pow_succ, mul_comm (256 ^ k) 256, Nat.mod_mul]
      ring

theorem natBytesBE_length (k v : Nat) : (natBytesBE k v).length = k := by
  induction k generalizing v with
  | zero => simp [natBytesBE]
  | succ k ih => simp [natBytesBE, ih]

theorem size_le_imp_lt {v k : Nat} (h : Nat.size v ≤ k) : v < 2 ^ k :=
  lt_of_lt_of_le (Nat.lt_size_self v) (Nat.pow_le_pow_right (by norm_num) h)

theorem fromBytesBE_toBytesBE (v : Nat) : fromBytesBE (toBytesBE v) = v := by
  rw [toBytesBE]
  by_cases h0 : v = 0
  · simp [h0, fromBytesBE_natBytesBE]
  · rw [if_neg h0, fromBytesBE_natBytesBE]
    apply Nat.mod_eq_of_lt
    have hsz : Nat.size v ≤ 8 * ((Nat.size v + 7) / 8) := by omega
    have := size_le_imp_lt hsz
    calc v < 2 ^ (8 * ((Nat.size v + 7) / 8)) := this
    _ = 256 ^ ((Nat.size v + 7) / 8) := by rw [pow_mul]; norm_num

theorem toBytesBE_ne_nil (v : Nat) : toBytesBE v ≠ [] := by
  rw [toBytesBE]
  by_cases h0 : v = 0 <;>
    simp only [h0, if_pos, if_neg, ← List.length_pos, natBytesBE_length, ite_true, ite_false,
      reduceIte] <;>
    first
      | omega
      | (have hs := Nat.size_pos.mpr (Nat.pos_of_ne_zero h0); omega)

theorem natBytesBE_head? (k v : Nat) :
    (natBytesBE (k + 1) v).head? = some (v / 256 ^ k % 256) := by
  induction k generalizing v with
  | zero => simp [natBytesBE]
  | succ k ih =>
      have hne : natBytesBE (k + 1) (v / 256) ≠ [] := by
        simp [← List.length_pos, natBytesBE_length]
      rw [natBytesBE, List.head?_append_of_ne_nil _ hne, ih]
      congr 1
      rw [Nat.div_div_eq_div_mul, pow_succ, mul_comm (256 ^ k) 256]

theorem natBytesBE_headD (k v : Nat) :
    (natBytesBE (k + 1) v).headD 0 = v / 256 ^ k % 256 := by
  rw [List.headD_eq_head?_getD, natBytesBE_head?]
  rfl

theorem intByteLen_pos (v : Int) : 1 ≤ intByteLen v := by
  rw [intByteLen]; split <;> omega

theorem intByteLen_bound (v : Int) :
    -((2 : Int) ^ (8 * intByteLen v - 1)) ≤ v ∧ v < (2 : Int) ^ (8 * intByteLen v - 1) := by
  rw [intByteLen]
  split
  case isTrue h =>
    have hsz : Nat.size v.toNat ≤ 8 * (Nat.size v.toNat / 8 + 1) - 1 := by omega
    have hlt : v.toNat < 2 ^ (8 * (Nat.size v.toNat / 8 + 1) - 1) :=
      Nat.size_le.mp hsz
    have hcast : ((2 ^ (8 * (Nat.size v.toNat / 8 + 1) - 1) : Nat) : Int)
        = (2 : Int) ^ (8 * (Nat.size v.toNat / 8 + 1) - 1) := by
      push_cast
      ring
    have hlt2 : v < (2 : Int) ^ (8 * (Nat.size v.toNat / 8 + 1) - 1) := by omega
    refine ⟨le_trans ?_ h, hlt2⟩
    have hnn : (0 : Int) ≤ (2 : Int) ^ (8 * (Nat.size v.toNat / 8 + 1) - 1) := by positivity
    omega
  case isFalse h =>
    set m := (-v).toNat - 1 with hm
    have hv : v = -((m : Int) + 1) := by
      have h0 : ((-v).toNat : Int) = -v := Int.toNat_of_nonneg (by omega)
      have h1 : 1 ≤ (-v).toNat := by omega
      rw [hm]
      push_cast [h1]
      omega
    have hsz : Nat.size m ≤ 8 * (Nat.size m / 8 + 1) - 1 := by omega
    have hlt : m < 2 ^ (8 * (Nat.size m / 8 + 1) - 1) := Nat.size_le.mp hsz
    have hcast : ((2 ^ (8 * (Nat.size m / 8 + 1) - 1) : Nat) : Int)
        = (2 : Int) ^ (8 * (Nat.size m / 8 + 1) - 1) := by
      push_cast
      ring
    constructor
    · omega
    · have hnn : (0 : Int) ≤ (2 : Int) ^ (8 * (Nat.size m / 8 + 1) - 1) := by positivity
      omega

/-- Round-trip of the two's-complement encoding used for the signed field
`v` of `ProofFac`. -/
theorem fromSignedBytesBE_toSignedBytesBE (v : Int) :
    fromSignedBytesBE (toSignedBytesBE v) = v := by
  have hk1 := intByteLen_pos v
  obtain ⟨hlo, hhi⟩ := intByteLen_bound v
  set k := intByteLen v with hk
  have hpow : (0 : Int) < 2 ^ (8 * k) := by positivity
  have hsplit : (2 : Int) ^ (8 * k) = 2 ^ (8 * k - 1) * 2 := by
    rw [← pow_succ]
    congr 1
    omega
  have hA : (0 : Int) ≤ 2 ^ (8 * k - 1) := by positivity
  have hemod : v % ((2 : Int) ^ (8 * k)) = if 0 ≤ v then v else v + 2 ^ (8 * k) := by
    split
    case isTrue h => exact Int.emod_eq_of_lt h (by omega)
    case isFalse h =>
      have heq : (v + 2 ^ (8 * k) * 1) % ((2 : Int) ^ (8 * k)) = v % ((2 : Int) ^ (8 * k)) :=
        Int.add_mul_emod_self_left v ((2 : Int) ^ (8 * k)) 1
      rw [mul_one] at heq
      rw [← heq, Int.emod_eq_of_lt (by omega) (by omega)]
  set u := (v % ((2 : Int) ^ (8 * k))).toNat with hu
  have h3 : 0 ≤ v % ((2 : Int) ^ (8 * k)) := Int.emod_nonneg v (ne_of_gt hpow)
  have h2 : v % ((2 : Int) ^ (8 * k)) < 2 ^ (8 * k) := Int.emod_lt_of_pos v hpow
  have hucast : ((u : Int)) = v % ((2 : Int) ^ (8 * k)) := Int.toNat_of_nonneg h3
  have hcast : ((2 ^ (8 * k) : Nat) : Int) = (2 : Int) ^ (8 * k) := by
    push_cast
    ring
  have hu_lt : u < 2 ^ (8 * k) := by omega
  have h256 : (256 : Nat) ^ k = 2 ^ (8 * k) := by
    rw [show (256 : Nat) = 2 ^ 8 from rfl, ← pow_mul]
  have hfb : fromBytesBE (natBytesBE k u) = u := by
    rw [fromBytesBE_natBytesBE, h256]
    exact Nat.mod_eq_of_lt hu_lt
  obtain ⟨k', hk'⟩ : ∃ k', k = k' + 1 := ⟨k - 1, by omega⟩
  have hudiv : u / 256 ^ k' < 256 := by
    apply Nat.div_lt_of_lt_mul
    calc u < 2 ^ (8 * k) := hu_lt
    _ = 256 ^ k := h256.symm
    _ = 256 ^ k' * 256 := by rw [hk', pow_succ]
  have hhead : (natBytesBE k u).headD 0 = u / 256 ^ k' := by
    rw [hk', natBytesBE_headD]
    exact Nat.mod_eq_of_lt hudiv
  have h256' : (128 : Nat) * 256 ^ k' = 2 ^ (8 * k - 1) := by
    have hx : (256 : Nat) ^ k' = 2 ^ (8 * k') := by
      rw [show (256 : Nat) = 2 ^ 8 from rfl, ← pow_mul]
    rw [hx, show (128 : Nat) = 2 ^ 7 from rfl, ← pow_add]
    congr 1
    omega
  have hcast' : ((2 ^ (8 * k - 1) : Nat) : Int) = (2 : Int) ^ (8 * k - 1) := by
    push_cast
    ring
  rw [fromSignedBytesBE, toSignedBytesBE, ← hk, ← hu, hhead, natBytesBE_length, hfb]
  by_cases hv : 0 ≤ v
  case pos =>
    have huv : (u : Int) = v := by rw [hucast, hemod, if_pos hv]
    have hsmall : u / 256 ^ k' < 128 := by
      apply Nat.div_lt_of_lt_mul
      rw [mul_comm]
      have : (u : Int) < ((128 * 256 ^ k' : Nat) : Int) := by
        push_cast [h256']
        push_cast at hcast'
        omega
      exact_mod_cast this
    rw [if_neg (by omega)]
    exact huv
  case neg =>
    have huv : (u : Int) = v + 2 ^ (8 * k) := by rw [hucast, hemod, if_neg hv]
    have hbig : 128 ≤ u / 256 ^ k' := by
      rw [Nat.le_div_iff_mul_le (by positivity)]
      have : ((128 * 256 ^ k' : Nat) : Int) ≤ (u : Int) := by
        push_cast [h256']
        push_cast at hcast'
        omega
      exact_mod_cast this
    rw [if_pos hbig, huv]
    omega

theorem toSignedBytesBE_ne_nil (v : Int) : toSignedBytesBE v ≠ [] := by
  rw [toSignedBytesBE, ← List.length_pos, natBytesBE_length]
  exact intByteLen_pos v

theorem bitLenGo_le_iff : ∀ fuel m k, m ≤ fuel → (bitLenGo fuel m ≤ k ↔ m < 2 ^ k)
  | 0, m, k, h => by
      have hm : m = 0 := by omega
      subst hm
      rw [show bitLenGo 0 0 = 0 from rfl]
      constructor
      · intro _
        positivity
      · intro _
        exact Nat.zero_le k
  | fuel + 1, m, k, h => by
      rw [bitLenGo]
      by_cases h0 : m = 0
      · subst h0
        rw [if_pos rfl]
        constructor
        · intro _
          positivity
        · intro _
          exact Nat.zero_le k
      · rw [if_neg h0]
        cases k with
        | zero => simp; omega
        | succ k =>
            have hrec := bitLenGo_le_iff fuel (m / 2) k (by omega)
            constructor
            · intro hle
              have : m / 2 < 2 ^ k := hrec.mp (by omega)
              have := (Nat.div_lt_iff_lt_mul (by norm_num : 0 < 2)).mp this
              calc m < 2 ^ k * 2 := this
              _ = 2 ^ (k + 1) := by ring
            · intro hlt
              have : m / 2 < 2 ^ k := by
                rw [Nat.div_lt_iff_lt_mul (by norm_num : 0 < 2)]
                calc m < 2 ^ (k + 1) := hlt
                _ = 2 ^ k * 2 := by ring
              have := hrec.mpr this
              omega

theorem bitLen_le_iff (m k : Nat) : bitLen m ≤ k ↔ m < 2 ^ k :=
  bitLenGo_le_iff m m k le_rfl

theorem bitLen_pos_of_pos {m : Nat} (h : 0 < m) : 1 ≤ bitLen m := by
  by_contra hc
  have : bitLen m ≤ 0 := by omega
  have := (bitLen_le_iff m 0).mp this
  omega

/-- C10: `ModInt::div` succeeds whenever the divisor is non-zero and
returns the truncated integer quotient reduced mod the modulus — with
modulus 10, `div(7, 2) = 3` — and it is not multiplication by the modular
inverse: with modulus 10 the inverse of 3 is 7, `div(7, 3) = 2`, yet
`mul(7, mod_inverse(3)) = 9 ≠ 2`. -/
theorem modDiv_truncated_quotient (m x y : Nat) (_hm : 0 < m) (hy : y ≠ 0) :
    modDiv m x y = .ok (x / y % m) ∧
    modDiv 10 7 2 = .ok 3 ∧
    modInverse 10 3 = some 7 ∧
    modDiv 10 7 3 = .ok 2 ∧
    modMul 10 7 ((modInverse 10 3).getD 0) = 9 ∧
    modDiv 10 7 3 ≠ .ok (modMul 10 7 ((modInverse 10 3).getD 0)) := by
  refine ⟨?_, rfl, rfl, rfl, rfl, ?_⟩
  · simp [modDiv, hy]
  · intro hcontra
    have h2 : (2 : Nat) = 9 := by
      have : (Except.ok 2 : Except CommonErr Nat) = Except.ok 9 := hcontra
      injection this
    omega

theorem modDiv_truncated_quotient_witness :
    modDiv 3 7 2 = .ok (7 / 2 % 3) :=
  (modDiv_truncated_quotient 3 7 2 (by norm_num) (by norm_num)).1

theorem hashStreamNoTag_foldl (l : List (List Nat)) :
    ∀ acc : List Nat,
      l.foldl (fun acc s => acc ++ s ++ [36] ++ le64 s.length) acc
        = acc ++ (l.map fun s => s ++ [36] ++ le64 s.length).flatten := by
  induction l with
  | nil => intro acc; simp
  | cons s rest ih =>
      intro acc
      simp only [List.foldl_cons, List.map_cons, List.flatten_cons, ih]
      simp [List.append_assoc]

theorem hashStreamNoTag_eq (srcs : List (List Nat)) :
    hashStreamNoTag srcs
      = le64 srcs.length ++ (srcs.map fun s => s ++ [36] ++ le64 s.length).flatten := by
  rw [hashStreamNoTag, hashStreamNoTag_foldl]

/-- C3: the Fiat-Shamir challenge functions hash exactly the byte layout
the spec describes — an optional pre-hashed domain tag injected twice,
the 8-byte little-endian input count, and for each input its big-endian
magnitude (zero encoding as the empty string), a `'$'` delimiter byte and
its 8-byte little-endian length — and `rejection_sample` reduces the
big-endian value of the digest mod `q`. -/
theorem hash_challenge_byte_layout :
    (∀ sha tag srcs, hashSha512_256iTagged sha tag srcs
        = sha (specChallengeStream sha (some tag) srcs)) ∧
    (∀ sha srcs, hashSha512_256i sha srcs = sha (specChallengeStream sha none srcs)) ∧
    (∀ q digest, rejectionSample q digest = fromBytesBE digest % q) := by
  have hbody : ∀ (srcs : List Nat),
      hashStreamNoTag (srcs.map intBytes)
        = le64 srcs.length ++
          ((srcs.map intBytes).map fun s => s ++ [36] ++ le64 s.length).flatten := by
    intro srcs
    rw [hashStreamNoTag_eq, List.length_map]
  have htag : ∀ t : List Nat, hashStreamNoTag [t] = le64 1 ++ t ++ [36] ++ le64 t.length := by
    intro t
    rw [hashStreamNoTag_eq]
    simp [List.append_assoc]
  refine ⟨?_, ?_, fun _ _ => rfl⟩
  · intro sha tag srcs
    rw [hashSha512_256iTagged, sha512_256i, sha512_256, specChallengeStream]
    congr 1
    rw [hashStream, htag tag, hbody srcs]
    simp [List.length_map]
  · intro sha srcs
    rw [hashSha512_256i, sha512_256i, sha512_256, specChallengeStream]
    congr 1
    rw [hashStream, hbody srcs]
    simp [List.length_map]

theorem secretsFilterMap_eq_map {parts : List (List Nat)}
    (h : ∀ p ∈ parts, p.length ≤ MAX_PART_SIZE) :
    (parts.filterMap fun ps =>
      if ps.length > MAX_PART_SIZE then none else some (ps.length :: ps))
      = parts.map fun ps => ps.length :: ps := by
  induction parts with
  | nil => rfl
  | cons p rest ih =>
      rw [List.filterMap_cons, List.map_cons]
      rw [if_neg (by have := h p (by simp); omega)]
      rw [ih fun x hx => h x (by simp [hx])]

theorem secretsBuild_eq_pack {parts : List (List Nat)} (hlen : parts.length ≤ PARTS_CAP)
    (h : ∀ p ∈ parts, p.length ≤ MAX_PART_SIZE) :
    secretsBuild parts = .ok (secretsPack parts) := by
  rw [secretsBuild, if_neg (by omega), secretsFilterMap_eq_map h, secretsPack]

theorem secretsPack_cons (p : List Nat) (rest : List (List Nat)) :
    secretsPack (p :: rest) = p.length :: (p ++ secretsPack rest) := by
  simp [secretsPack]

theorem secretsParseGo_nil (fuel : Nat) (acc : List (List Nat)) :
    secretsParseGo fuel [] acc = .ok acc := by
  cases fuel <;> rfl

theorem secretsParseGo_pack : ∀ (parts acc : List (List Nat)) (fuel : Nat),
    acc.length + parts.length ≤ PARTS_CAP →
    (∀ p ∈ parts, p.length ≤ MAX_PART_SIZE) →
    (secretsPack parts).length ≤ fuel →
    secretsParseGo fuel (secretsPack parts) acc = .ok (acc ++ parts)
  | [], acc, fuel, _, _, _ => by
      rw [show secretsPack [] = [] from rfl, secretsParseGo_nil]
      simp
  | p :: rest, acc, fuel, hlen, hsz, hfuel => by
      have hp : p.length ≤ MAX_PART_SIZE := hsz p (by simp)
      have hmax : MAX_PART_SIZE = 1048576 := rfl
      have hcap : PARTS_CAP = 3 := rfl
      rw [secretsPack_cons] at hfuel ⊢
      simp only [List.length_cons] at hfuel
      obtain ⟨f, rfl⟩ : ∃ f, fuel = f + 1 := ⟨fuel - 1, by omega⟩
      simp only [List.length_cons] at hlen
      rw [secretsParseGo]
      rw [if_neg (by omega)]
      rw [if_neg (by omega)]
      rw [if_neg (by omega)]
      rw [if_neg (by simp [List.length_append])]
      rw [List.drop_left, List.take_left]
      rw [secretsParseGo_pack rest (acc ++ [p]) f
        (by simp; omega) (fun x hx => hsz x (by simp [hx]))
        (by simp [List.length_append] at hfuel ⊢; omega)]
      simp

theorem secretsParseGo_err_of_full (fuel : Nat) (ss : List Nat) (acc : List (List Nat))
    (hacc : PARTS_CAP ≤ acc.length) (hne : ss ≠ []) :
    ∃ e, secretsParseGo fuel ss acc = .error e := by
  obtain ⟨a, ss2, rfl⟩ := List.exists_cons_of_ne_nil hne
  cases fuel with
  | zero => exact ⟨_, rfl⟩
  | succ f =>
      rw [secretsParseGo, if_pos (by omega)]
      exact ⟨_, rfl⟩

theorem secretsParseGo_err_overfull : ∀ (parts acc : List (List Nat)) (fuel : Nat),
    acc.length ≤ PARTS_CAP →
    PARTS_CAP < acc.length + parts.length →
    (∀ p ∈ parts, p.length ≤ MAX_PART_SIZE) →
    (secretsPack parts).length ≤ fuel →
    ∃ e, secretsParseGo fuel (secretsPack parts) acc = .error e
  | [], _, _, _, hover, _, _ => by simp at hover; omega
  | p :: rest, acc, fuel, hacc, hover, hsz, hfuel => by
      have hp : p.length ≤ MAX_PART_SIZE := hsz p (by simp)
      have hmax : MAX_PART_SIZE = 1048576 := rfl
      have hcap : PARTS_CAP = 3 := rfl
      by_cases hfull : PARTS_CAP ≤ acc.length
      · exact secretsParseGo_err_of_full fuel _ acc hfull (by rw [secretsPack_cons]; simp)
      · rw [secretsPack_cons] at hfuel ⊢
        simp only [List.length_cons] at hfuel
        obtain ⟨f, rfl⟩ : ∃ f, fuel = f + 1 := ⟨fuel - 1, by omega⟩
        simp only [List.length_cons] at hover
        rw [secretsParseGo]
        rw [if_neg (by omega)]
        rw [if_neg (by omega)]
        rw [if_neg (by omega)]
        rw [if_neg (by simp [List.length_append])]
        rw [List.drop_left, List.take_left]
        exact secretsParseGo_err_overfull rest (acc ++ [p]) f
          (by simp; omega) (by simp; omega)
          (fun x hx => hsz x (by simp [hx]))
          (by simp [List.length_append] at hfuel ⊢; omega)

theorem secretsPack_length_ge (parts : List (List Nat)) :
    parts.length ≤ (secretsPack parts).length := by
  induction parts with
  | nil => simp [secretsPack]
  | cons p rest ih =>
      rw [secretsPack_cons]
      simp only [List.length_cons, List.length_append]
      omega

/-- The full build-then-parse round trip under the caps, starting from
the empty accumulator. -/
theorem secretsRoundtrip {parts : List (List Nat)} (hlen : parts.length ≤ PARTS_CAP)
    (hsz : ∀ p ∈ parts, p.length ≤ MAX_PART_SIZE)
    (hmin : 2 ≤ (secretsPack parts).length) :
    (secretsBuild parts).bind secretsParse = .ok parts := by
  rw [secretsBuild_eq_pack hlen hsz]
  show secretsParse (secretsPack parts) = _
  rw [secretsParse, if_neg (by omega)]
  rw [secretsParseGo_pack parts [] _ (by simpa) hsz le_rfl]
  simp

/-- C7 counterexample: the empty part list is within every cap the claim
names, yet parsing its built form fails with "secrets too few" instead of
round-tripping. -/
theorem c7_counterexample_empty_roundtrip :
    (secretsBuild []).bind secretsParse = .error (.secretsTooFew 0) ∧
    (secretsBuild []).bind secretsParse ≠ .ok ([] : List (List Nat)) := by
  constructor
  · rfl
  · intro h
    exact Except.noConfusion h

/-- C7 (amended): build-then-parse round-trips for every list of at most
3 parts of at most 2^20 entries whose packed form holds at least two
integers (the empty list and a lone empty part fail the parser's
minimum-length check with SecretsTooFew); build fails on more than 3
parts; parse fails on a declared part length exceeding 2^20, on a
declared length exceeding the remaining data, and on packed data holding
more than 3 parts; and build silently drops an oversized part (its `Err`
vanishes in the `flat_map` over `Result`), so the round-trip returns the
list with the oversized part removed rather than an error. -/
theorem secrets_build_parse_contract :
    (∀ parts : List (List Nat), parts.length ≤ PARTS_CAP →
      (∀ p ∈ parts, p.length ≤ MAX_PART_SIZE) →
      2 ≤ (secretsPack parts).length →
      (secretsBuild parts).bind secretsParse = .ok parts) ∧
    (∀ parts : List (List Nat), PARTS_CAP < parts.length →
      secretsBuild parts = .error (.tooManyCommitmentParts parts.length)) ∧
    (∀ first rest, MAX_PART_SIZE < first →
      ∃ e, secretsParse (first :: rest) = .error e) ∧
    (∀ first rest, first ≤ MAX_PART_SIZE → rest.length < first →
      ∃ e, secretsParse (first :: rest) = .error e) ∧
    (∀ parts : List (List Nat), PARTS_CAP < parts.length →
      (∀ p ∈ parts, p.length ≤ MAX_PART_SIZE) →
      ∃ e, secretsParse (secretsPack parts) = .error e) ∧
    (∀ (big : List Nat) (parts : List (List Nat)), MAX_PART_SIZE < big.length →
      parts.length < PARTS_CAP → (∀ p ∈ parts, p.length ≤ MAX_PART_SIZE) →
      2 ≤ (secretsPack parts).length →
      secretsBuild (big :: parts) = secretsBuild parts ∧
      (secretsBuild (big :: parts)).bind secretsParse = .ok parts) := by
  have hmax : MAX_PART_SIZE = 1048576 := rfl
  have hcap : PARTS_CAP = 3 := rfl
  refine ⟨fun parts h1 h2 h3 => secretsRoundtrip h1 h2 h3, ?_, ?_, ?_, ?_, ?_⟩
  · intro parts hover
    rw [secretsBuild, if_pos (by omega)]
  · intro first rest hbig
    rw [secretsParse]
    split
    · exact ⟨_, rfl⟩
    · simp only [List.length_cons]
      rw [secretsParseGo]
      rw [if_neg (by decide)]
      by_cases h64 : 2 ^ 64 ≤ first
      · rw [if_pos h64]
        exact ⟨_, rfl⟩
      · rw [if_neg h64, if_pos (by omega)]
        exact ⟨_, rfl⟩
  · intro first rest hle hrem
    rw [secretsParse]
    split
    · exact ⟨_, rfl⟩
    · simp only [List.length_cons]
      rw [secretsParseGo]
      rw [if_neg (by decide)]
      rw [if_neg (by omega)]
      rw [if_neg (by omega)]
      rw [if_pos (by omega)]
      exact ⟨_, rfl⟩
  · intro parts hover hsz
    have hmin := secretsPack_length_ge parts
    rw [secretsParse, if_neg (by omega)]
    exact secretsParseGo_err_overfull parts [] _ (by simp) (by simpa) hsz le_rfl
  · intro big parts hbig hlen hparts hmin
    have hnone : (fun ps : List Nat =>
        if ps.length > MAX_PART_SIZE then none else some (ps.length :: ps)) big = none := by
      show (if big.length > MAX_PART_SIZE then none else some (big.length :: big)) = none
      rw [if_pos hbig]
    have hbeq : secretsBuild (big :: parts) = secretsBuild parts := by
      rw [secretsBuild, secretsBuild,
        if_neg (by simp only [List.length_cons]; omega), if_neg (by omega)]
      simp only [List.filterMap_cons, hnone]
    refine ⟨hbeq, ?_⟩
    rw [hbeq]
    exact secretsRoundtrip (by omega) hparts hmin

theorem secrets_build_parse_contract_witness :
    (secretsBuild [[5], [6]]).bind secretsParse = .ok [[5], [6]] ∧
    secretsBuild [[], [], [], []] = .error (.tooManyCommitmentParts 4) ∧
    (∃ e, secretsParse [1048577, 0] = .error e) ∧
    (∃ e, secretsParse [3, 1, 2] = .error e) ∧
    (∃ e, secretsParse (secretsPack [[], [], [], []]) = .error e) ∧
    (secretsBuild (List.replicate 1048577 0 :: [[5], [6]]) = secretsBuild [[5], [6]] ∧
      (secretsBuild (List.replicate 1048577 0 :: [[5], [6]])).bind secretsParse =
        .ok [[5], [6]]) := by
  refine ⟨secrets_build_parse_contract.1 [[5], [6]] (by decide) (by decide) (by decide),
    secrets_build_parse_contract.2.1 [[], [], [], []] (by decide),
    secrets_build_parse_contract.2.2.1 1048577 [0] (by decide),
    secrets_build_parse_contract.2.2.2.1 3 [1, 2] (by decide) (by decide),
    secrets_build_parse_contract.2.2.2.2.1 [[], [], [], []] (by decide) (by decide),
    secrets_build_parse_contract.2.2.2.2.2 (List.replicate 1048577 0) [[5], [6]]
      (by rw [List.length_replicate]; norm_num [MAX_PART_SIZE]) (by decide) (by decide)
      (by decide)⟩

theorem intSqrt_eq_sqrt (n : Nat) : intSqrt n = Nat.sqrt n := by
  obtain ⟨hle, hP, hmax⟩ :=
    Nat.findGreatest_eq_iff.mp
      (show Nat.findGreatest (fun r => r * r ≤ n) n = intSqrt n from rfl)
  refine Nat.eq_sqrt.mpr ⟨?_, ?_⟩
  · rcases Nat.eq_zero_or_pos (intSqrt n) with h0 | hpos
    · rw [h0]
      omega
    · exact hP (by omega)
  · by_contra hc
    push_neg at hc
    have hsucc : intSqrt n + 1 ≤ n := le_trans (Nat.le_mul_self _) hc
    exact hmax (by omega) hsucc hc

theorem mrLoop_false {n : Nat} (hn : 3 ≤ n) : ∀ count y, y < n →
    mrLoop n (n - 1) count y = false
  | 0, _, _ => rfl
  | count + 1, y, hy => by
      rw [mrLoop]
      have hsq0 : intSqrt y = Nat.sqrt y := intSqrt_eq_sqrt y
      have hsq : intSqrt y % n = Nat.sqrt y := by
        rw [hsq0]
        exact Nat.mod_eq_of_lt (lt_of_le_of_lt (Nat.sqrt_le_self y) hy)
      have hlt : Nat.sqrt y < n - 1 :=
        lt_of_le_of_lt (Nat.sqrt_le_sqrt (by omega)) (Nat.sqrt_lt_self (by omega))
      simp only [hsq]
      rw [if_neg (by omega)]
      split
      · rfl
      · exact mrLoop_false hn count _ (by omega)

theorem mrBaseTest_true_iff {n : Nat} (hn : 3 ≤ n) (k q x : Nat) :
    mrBaseTest n (n - 1) k q x = true ↔ modPow n x q = 1 ∨ modPow n x q = n - 1 := by
  have hy : modPow n x q < n := Nat.mod_lt _ (by omega)
  show (if modPow n x q = 1 ∨ modPow n x q = n - 1 then true
    else mrLoop n (n - 1) (k - 1) (modPow n x q)) = true ↔ _
  split
  case isTrue h => simpa using h
  case isFalse h =>
      rw [mrLoop_false hn _ _ hy]
      simpa using h

theorem trailingZeros_pos {m : Nat} (heven : m % 2 = 0) (hne : m ≠ 0) :
    0 < trailingZeros m := by
  rw [trailingZeros]
  cases m with
  | zero => omega
  | succ f =>
      rw [trailingZerosGo]
      rw [if_neg (by omega)]
      omega

/-- C8: `is_prime` consults the small-prime bit-mask below 64; rejects
even values from 64 up; and for odd values that survive the trial
division against the two small-prime products it answers true only when
every supplied base — the random draws shifted into `[2, x - 2]` plus the
fixed final base 2 — passes the classical strong-probable-prime test. -/
theorem isPrime_structure :
    (∀ x bases, x < 64 →
      (isPrime x bases = true ↔
        x ∈ [2, 3, 5, 7, 11, 13, 17, 19, 23, 29, 31, 37, 41, 43, 47, 53, 59, 61])) ∧
    (∀ x bases, 64 ≤ x → x % 2 = 0 → isPrime x bases = false) ∧
    (∀ x rands, 64 ≤ x → x % 2 = 1 →
      (∀ r ∈ rands, r < x - 3) →
      ((PRIMES_A_MEMBERS.any fun m => x % PRIMES_AB % PRIMES_A % m = 0) ||
        (PRIMES_B_MEMBERS.any fun m => x % PRIMES_AB % PRIMES_B % m = 0)) = false →
      isPrime x (mrBases rands) = true →
      ∀ a ∈ mrBases rands, strongProbablePrime x a) := by
  have hmask : ∀ x, x < 64 → ((PRIMES_AS_BIT_MASK &&& (1 <<< x) ≠ 0) ↔
      x ∈ [2, 3, 5, 7, 11, 13, 17, 19, 23, 29, 31, 37, 41, 43, 47, 53, 59, 61]) := by
    decide
  refine ⟨?_, ?_, ?_⟩
  · intro x bases hx
    rw [isPrime, if_pos ((bitLen_le_iff x 6).mpr hx)]
    simp only [decide_eq_true_eq]
    exact hmask x hx
  · intro x bases hx h2
    rw [isPrime, if_neg (by rw [bitLen_le_iff]; omega), if_pos h2]
  · intro x rands hx hodd hr hsurv htrue a ha
    rw [isPrime, if_neg (by rw [bitLen_le_iff]; omega), if_neg (by omega)] at htrue
    rw [if_neg (by rw [hsurv]; exact Bool.false_ne_true)] at htrue
    rw [probablyPrimeMillerRabin] at htrue
    have hbase := List.all_eq_true.mp htrue a ha
    have h3 : 3 ≤ x := by omega
    have := (mrBaseTest_true_iff h3 (trailingZeros (x - 1)) ((x - 1) >>> trailingZeros (x - 1)) a).mp hbase
    rw [strongProbablePrime]
    rcases this with h1 | hm1
    · left
      rw [Nat.mod_eq_of_lt (by omega : 1 < x)]
      exact h1
    · right
      refine ⟨0, trailingZeros_pos (by omega) (by omega), ?_⟩
      rw [pow_zero, one_mul, Nat.mod_eq_of_lt (by omega : x - 1 < x)]
      exact hm1

theorem isPrime_structure_witness : strongProbablePrime 67 2 := by
  have h := isPrime_structure.2.2 67 [] (by norm_num) (by norm_num)
    (by simp) (by decide) (by decide)
  exact h 2 (by decide)

theorem toBytesBE_isEmpty (v : Nat) : (toBytesBE v).isEmpty = false := by
  cases h : toBytesBE v with
  | nil => exact absurd h (toBytesBE_ne_nil v)
  | cons a l => rfl

theorem toSignedBytesBE_isEmpty (v : Int) : (toSignedBytesBE v).isEmpty = false := by
  cases h : toSignedBytesBE v with
  | nil => exact absurd h (toSignedBytesBE_ne_nil v)
  | cons a l => rfl

theorem map_from_to_BytesBE (l : List Nat) :
    (l.map toBytesBE).map fromBytesBE = l := by
  rw [List.map_map]
  have : fromBytesBE ∘ toBytesBE = id := by
    funext v
    exact fromBytesBE_toBytesBE v
  rw [this, List.map_id]

/-- C6: deserializing the serialized form yields the original proof for
each wire format: ProofFac's 11 byte-string fields including every value
of the signed field `v`, ProofMod's 163 fields, and the DLN proof's two
length-prefixed packed parts. -/
theorem serialization_roundtrip :
    (∀ pf : ProofFacS, proofFacFromBytes (proofFacToBytes pf) = .ok pf) ∧
    (∀ pm : ProofModS, pm.x.length = 80 → pm.z.length = 80 →
      proofModFromBytes (proofModToBytes pm) = .ok pm) ∧
    (∀ dp : DlnProof, dp.alpha.length = DLN_LENGTH → dp.t.length = DLN_LENGTH →
      (dlnMarshal dp).bind dlnUnmarshal = .ok dp) := by
  refine ⟨?_, ?_, ?_⟩
  · intro pf
    show (if isNonEmptyAll [toBytesBE pf.p, toBytesBE pf.q, toBytesBE pf.a, toBytesBE pf.b,
        toBytesBE pf.t, toBytesBE pf.sigma, toBytesBE pf.z1, toBytesBE pf.z2, toBytesBE pf.w1,
        toBytesBE pf.w2, toSignedBytesBE pf.v] = true then _ else _) = _
    rw [if_pos (by
      simp [isNonEmptyAll, toBytesBE_isEmpty, toSignedBytesBE_isEmpty])]
    simp only [fromBytesBE_toBytesBE, fromSignedBytesBE_toSignedBytesBE]
  · intro pm hx hz
    have hxs : (pm.x.map toBytesBE).length = 80 := by simp [hx]
    have hzs : (pm.z.map toBytesBE).length = 80 := by simp [hz]
    have hlen : (proofModToBytes pm).length = 163 := by
      simp [proofModToBytes, hx, hz]
    have hne : isNonEmptyAll (proofModToBytes pm) = true := by
      rw [isNonEmptyAll]
      simp only [Bool.and_eq_true, Bool.not_eq_true', List.all_eq_true]
      constructor
      · rw [List.isEmpty_eq_false_iff_exists_mem]
        exact ⟨toBytesBE pm.w, by simp [proofModToBytes]⟩
      · intro v hv
        simp only [proofModToBytes, List.mem_append, List.mem_cons, List.mem_map,
          List.mem_singleton, List.not_mem_nil, or_false] at hv
        rcases hv with ((h | ⟨a, _, rfl⟩) | h | h) | ⟨a, _, rfl⟩ <;>
          first
            | (subst h; exact toBytesBE_isEmpty _)
            | exact toBytesBE_isEmpty _
    rw [proofModFromBytes, if_pos hlen, if_pos hne]
    have hget0 : (proofModToBytes pm).getD 0 [] = toBytesBE pm.w := by
      rw [proofModToBytes]
      rfl
    have hdrop1 : (proofModToBytes pm).drop 1
        = pm.x.map toBytesBE ++ ([toBytesBE pm.a, toBytesBE pm.b] ++ pm.z.map toBytesBE) := by
      rw [proofModToBytes]
      simp [List.append_assoc]
    have htake80 : ((proofModToBytes pm).drop 1).take 80 = pm.x.map toBytesBE := by
      rw [hdrop1, ← hxs, List.take_left]
    have hregroup1 : proofModToBytes pm
        = [toBytesBE pm.w] ++ (pm.x.map toBytesBE
            ++ ([toBytesBE pm.a, toBytesBE pm.b] ++ pm.z.map toBytesBE)) := by
      rw [proofModToBytes]
      simp [List.append_assoc]
    have hget81 : (proofModToBytes pm).getD 81 [] = toBytesBE pm.a := by
      rw [hregroup1]
      rw [List.getD_append_right _ _ _ _ (by simp)]
      rw [List.getD_append_right _ _ _ _ (by rw [hxs]; simp)]
      rw [hxs]
      rfl
    have hget82 : (proofModToBytes pm).getD 82 [] = toBytesBE pm.b := by
      rw [hregroup1]
      rw [List.getD_append_right _ _ _ _ (by simp)]
      rw [List.getD_append_right _ _ _ _ (by rw [hxs]; simp)]
      rw [hxs]
      rfl
    have hdrop83 : ((proofModToBytes pm).drop 83).take 80 = pm.z.map toBytesBE := by
      have hregroup : proofModToBytes pm
          = (toBytesBE pm.w :: (pm.x.map toBytesBE ++ [toBytesBE pm.a, toBytesBE pm.b]))
            ++ pm.z.map toBytesBE := by
        rw [proofModToBytes]
        simp [List.append_assoc]
      have hplen : (toBytesBE pm.w :: (pm.x.map toBytesBE
          ++ [toBytesBE pm.a, toBytesBE pm.b])).length = 83 := by
        simp [hx]
      rw [hregroup, ← hplen, List.drop_left]
      exact List.take_of_length_le (by omega)
    rw [hget0, htake80, hget81, hget82, hdrop83]
    simp only [fromBytesBE_toBytesBE, map_from_to_BytesBE]
  · intro dp ha ht
    have hsz : ∀ p ∈ [dp.alpha, dp.t], p.length ≤ MAX_PART_SIZE := by
      intro p hp
      rcases List.mem_pair.mp hp with h | h
      · rw [h, ha]
        decide
      · rw [h, ht]
        decide
    rw [dlnMarshal, secretsBuild_eq_pack (by simp [PARTS_CAP]) hsz]
    show dlnUnmarshal ((secretsPack [dp.alpha, dp.t]).map toBytesBE) = _
    rw [dlnUnmarshal, map_from_to_BytesBE]
    have hpacklen : 2 ≤ (secretsPack [dp.alpha, dp.t]).length := by
      have := secretsPack_length_ge [dp.alpha, dp.t]
      simp at this
      omega
    rw [secretsParse, if_neg (by omega)]
    rw [secretsParseGo_pack [dp.alpha, dp.t] [] _ (by simp [PARTS_CAP]) hsz le_rfl]
    show (if dp.alpha.length = DLN_LENGTH then
        if dp.t.length = DLN_LENGTH then Except.ok (⟨dp.alpha, dp.t⟩ : DlnProof)
        else Except.error (CryptoErr.dlnProofInvalidLength dp.t.length)
      else Except.error (CryptoErr.dlnProofInvalidLength dp.alpha.length)) = Except.ok dp
    rw [if_pos ha, if_pos ht]

theorem serialization_roundtrip_witness :
    proofModFromBytes (proofModToBytes ⟨0, List.replicate 80 0, 0, 0, List.replicate 80 0⟩)
      = .ok ⟨0, List.replicate 80 0, 0, 0, List.replicate 80 0⟩ ∧
    ((dlnMarshal ⟨List.replicate 128 1, List.replicate 128 2⟩).bind dlnUnmarshal
      = .ok ⟨List.replicate 128 1, List.replicate 128 2⟩) := by
  exact ⟨serialization_roundtrip.2.1 _ (by simp) (by simp),
    serialization_roundtrip.2.2 _ (by simp [DLN_LENGTH]) (by simp [DLN_LENGTH])⟩

theorem bitLen_pos_iff (m : Nat) : 1 ≤ bitLen m ↔ 1 ≤ m := by
  constructor
  · intro h
    by_contra hc
    have hm : m = 0 := by omega
    subst hm
    have := (bitLen_le_iff 0 0).mpr (by norm_num)
    omega
  · intro h
    exact bitLen_pos_of_pos h

/-- C4 counterexample: a run of `PrivateKey::generate(16)` whose two
candidate safe primes (227 and 167) satisfy every generator
postcondition and pass gen_pq's filter, yet both have exactly 8 bits, so
the difference of their bit lengths is 0 < bits/2 - 3 = 5 — the claimed
constraint `|bitlen(p) - bitlen(q)| ≥ bits/2 - 3` fails on a produced
key. -/
theorem generateKey_bitlen_difference_counterexample :
    (∀ c ∈ [((227 : Nat), (167 : Nat))],
      GermainSafePrimePost (16 / 2) c.1 ∧ GermainSafePrimePost (16 / 2) c.2) ∧
    generateKey 16 [(227, 167)] = some (mkPrivKey 227 167) ∧
    ¬(16 / 2 - 3 ≤ (bitLen (mkPrivKey 227 167).p - bitLen (mkPrivKey 227 167).q)
        + (bitLen (mkPrivKey 227 167).q - bitLen (mkPrivKey 227 167).p)) := by
  refine ⟨?_, by decide, by decide⟩
  intro c hc
  rcases List.mem_singleton.mp hc with rfl
  exact ⟨⟨by norm_num, by norm_num, by decide, by decide⟩,
    by norm_num, by norm_num, by decide, by decide⟩

/-- C4 (amended): every key produced by `PrivateKey::generate(bits)` is
built from two safe primes of exactly `bits/2` bits, both prime, and the
constraint gen_pq actually enforces is on the bit length of the
difference: `bitlen(p - q) ≥ bits/2 - 3`; whenever `bits/2 ≥ 4` this also
forces `p ≠ q`. -/
theorem generateKey_postcondition (bits : Nat) (cands : List (Nat × Nat)) (key : PrivKey)
    (hpost : ∀ c ∈ cands,
      GermainSafePrimePost (bits / 2) c.1 ∧ GermainSafePrimePost (bits / 2) c.2)
    (hgen : generateKey bits cands = some key) :
    Nat.Prime key.p ∧ Nat.Prime key.q ∧
    GermainSafePrimePost (bits / 2) key.p ∧ GermainSafePrimePost (bits / 2) key.q ∧
    bits / 2 - 3 ≤ bitLen (key.p - key.q) ∧
    (4 ≤ bits / 2 → key.p ≠ key.q) ∧
    key.n = key.p * key.q := by
  rw [generateKey] at hgen
  cases hpq : genPQ (bits / 2) cands with
  | none =>
      rw [hpq] at hgen
      cases hgen
  | some pq =>
      rw [hpq] at hgen
      simp only [Option.map_some'] at hgen
      obtain rfl : mkPrivKey pq.1 pq.2 = key := Option.some.inj hgen
      rw [genPQ] at hpq
      have hpred := List.find?_some hpq
      have hmem := List.mem_of_find?_eq_some hpq
      rw [List.mem_map] at hmem
      obtain ⟨c, hc, horder⟩ := hmem
      obtain ⟨h1, h2⟩ := hpost c hc
      have hps : GermainSafePrimePost (bits / 2) pq.1 ∧ GermainSafePrimePost (bits / 2) pq.2 := by
        by_cases hgt : c.1 > c.2
        · rw [if_pos hgt] at horder
          rw [← horder]
          exact ⟨h1, h2⟩
        · rw [if_neg hgt] at horder
          rw [← horder]
          exact ⟨h2, h1⟩
      have hdiff : bits / 2 - 3 ≤ bitLen (pq.1 - pq.2) := of_decide_eq_true hpred
      refine ⟨hps.1.1, hps.2.1, hps.1, hps.2, hdiff, ?_, rfl⟩
      intro hb hne
      have heq : pq.1 = pq.2 := hne
      have hz : pq.1 - pq.2 = 0 := by omega
      rw [hz] at hdiff
      have h0 : bitLen 0 ≤ 0 := (bitLen_le_iff 0 0).mpr (by norm_num)
      omega

theorem generateKey_postcondition_witness :
    Nat.Prime (mkPrivKey 227 167).p ∧ 16 / 2 - 3 ≤ bitLen ((mkPrivKey 227 167).p - (mkPrivKey 227 167).q) := by
  have h := generateKey_postcondition 16 [(227, 167)] (mkPrivKey 227 167)
    (by
      intro c hc
      rcases List.mem_singleton.mp hc with rfl
      exact ⟨⟨by norm_num, by norm_num, by decide, by decide⟩,
        by norm_num, by norm_num, by decide, by decide⟩)
    (by decide)
  exact ⟨h.1, h.2.2.2.2.1⟩

theorem fromBytesBE_replicate_zero : fromBytesBE (List.replicate 32 0) = 0 := by decide

theorem mkYsGo_constZero (session : List Nat) (n : Nat) :
    ∀ (k : Nat) (ys : List Nat),
      mkYsGo constZeroDigest session n k ys = List.replicate k 0
  | 0, _ => rfl
  | k + 1, ys => by
      rw [mkYsGo]
      have hv : rejectionSample n (hashSha512_256iTagged constZeroDigest session ys) = 0 := by
        show fromBytesBE (List.replicate 32 0) % n = 0
        rw [fromBytesBE_replicate_zero, Nat.zero_mod]
      rw [hv, mkYsGo_constZero session n k (ys ++ [0])]
      rfl

theorem mkYsGo_length (sha : List Nat → List Nat) (session : List Nat) (n : Nat) :
    ∀ (k : Nat) (ys : List Nat), (mkYsGo sha session n k ys).length = k
  | 0, _ => rfl
  | k + 1, ys => by
      rw [mkYsGo]
      rw [List.length_cons, mkYsGo_length sha session n k]

theorem newModLoop_z_mem {n p q w expo invN : Nat} (hn : 0 < n) :
    ∀ (ys : List Nat) (i a b : Nat),
      ∀ v ∈ (newModLoop n p q w expo invN ys i a b).2.1, v < n
  | [], i, a, b => by
      intro v hv
      simp [newModLoop] at hv
  | yi :: rest, i, a, b => by
      intro v hv
      rw [newModLoop] at hv
      cases hfc : findCombo n p q w yi with
      | some t =>
          obtain ⟨yv, fa, fb⟩ := t
          rw [hfc] at hv
          simp only [List.mem_cons] at hv
          rcases hv with rfl | hv
          · exact Nat.mod_lt _ hn
          · exact newModLoop_z_mem hn rest (i + 1) _ _ v hv
      | none =>
          rw [hfc] at hv
          simp only [List.mem_cons] at hv
          rcases hv with rfl | hv
          · exact hn
          · exact newModLoop_z_mem hn rest (i + 1) a b v hv

theorem newModLoop_z_length (n p q w expo invN : Nat) :
    ∀ (ys : List Nat) (i a b : Nat),
      (newModLoop n p q w expo invN ys i a b).2.1.length = ys.length
  | [], _, _, _ => rfl
  | yi :: rest, i, a, b => by
      rw [newModLoop]
      cases hfc : findCombo n p q w yi with
      | some t =>
          obtain ⟨yv, fa, fb⟩ := t
          simp only [List.length_cons, newModLoop_z_length n p q w expo invN rest (i + 1)]
      | none =>
          simp only [List.length_cons, newModLoop_z_length n p q w expo invN rest (i + 1)]

/-- Unfolding ProofMod::new when the `phi`-inverse of `n` exists. -/
theorem newModProof_some (sha : List Nat → List Nat) (session : List Nat)
    (n p q w invN : Nat) (hinv : modInverse ((p - 1) * (q - 1)) n = some invN) :
    newModProof sha session n p q w = some ⟨w,
      (newModLoop n p q w
        (modMul ((p - 1) * (q - 1)) (((p - 1) * (q - 1) + 4) >>> 3)
          (((p - 1) * (q - 1) + 4) >>> 3)) invN
        (mkYs sha session n w) 0 (1 <<< ITERATIONS_MOD) (1 <<< ITERATIONS_MOD)).1,
      (newModLoop n p q w
        (modMul ((p - 1) * (q - 1)) (((p - 1) * (q - 1) + 4) >>> 3)
          (((p - 1) * (q - 1) + 4) >>> 3)) invN
        (mkYs sha session n w) 0 (1 <<< ITERATIONS_MOD) (1 <<< ITERATIONS_MOD)).2.2.1,
      (newModLoop n p q w
        (modMul ((p - 1) * (q - 1)) (((p - 1) * (q - 1) + 4) >>> 3)
          (((p - 1) * (q - 1) + 4) >>> 3)) invN
        (mkYs sha session n w) 0 (1 <<< ITERATIONS_MOD) (1 <<< ITERATIONS_MOD)).2.2.2,
      (newModLoop n p q w
        (modMul ((p - 1) * (q - 1)) (((p - 1) * (q - 1) + 4) >>> 3)
          (((p - 1) * (q - 1) + 4) >>> 3)) invN
        (mkYs sha session n w) 0 (1 <<< ITERATIONS_MOD) (1 <<< ITERATIONS_MOD)).2.1⟩ := by
  simp only [newModProof]
  rw [hinv]

/-- C1 (the code at the failing input): every proof built by
ProofMod::new is rejected by ProofMod::verify, for every digest function,
session and randomness on either side.  The verifier's early checks
demand `w ≥ n` and every `z_i ≥ n` (and reject Jacobi symbol -1), while
the prover emits `w < n` with Jacobi symbol -1 and `z_i < n`; whichever
of the inverted checks fires first, the result is `false`, so the
completeness property `verify(new(..)) = true` never holds for ProofMod. -/
theorem verifyModProof_rejects_newModProof (sha sha2 : List Nat → List Nat)
    (session session2 mrRands : List Nat) (n p q w : Nat) (pf : ProofModS)
    (hn : 0 < n) (hnew : newModProof sha session n p q w = some pf) :
    verifyModProof sha2 session2 mrRands n pf = false := by
  simp only [newModProof] at hnew
  cases hinv : modInverse ((p - 1) * (q - 1)) n with
  | none =>
      rw [hinv] at hnew
      cases hnew
  | some invN =>
      rw [hinv] at hnew
      obtain rfl := Option.some.inj hnew
      by_cases h1 : isQuadraticResidue w n
      · rw [verifyModProof, if_pos h1]
      · by_cases h2 : w < n
        · rw [verifyModProof, if_neg h1, if_pos h2]
        · have hzlen : ((newModLoop n p q w
              (modMul ((p - 1) * (q - 1)) (((p - 1) * (q - 1) + 4) >>> 3)
                (((p - 1) * (q - 1) + 4) >>> 3)) invN
              (mkYs sha session n w) 0 (1 <<< ITERATIONS_MOD) (1 <<< ITERATIONS_MOD)).2.1).length
              = ITERATIONS_MOD := by
            rw [newModLoop_z_length, mkYs, mkYsGo_length]
          have hzne : (newModLoop n p q w
              (modMul ((p - 1) * (q - 1)) (((p - 1) * (q - 1) + 4) >>> 3)
                (((p - 1) * (q - 1) + 4) >>> 3)) invN
              (mkYs sha session n w) 0 (1 <<< ITERATIONS_MOD) (1 <<< ITERATIONS_MOD)).2.1 ≠ [] := by
            rw [← List.length_pos, hzlen]
            rw [show ITERATIONS_MOD = 80 from rfl]
            omega
          obtain ⟨v, hv⟩ := List.exists_mem_of_ne_nil _ hzne
          have hvlt := newModLoop_z_mem hn (mkYs sha session n w) 0
            (1 <<< ITERATIONS_MOD) (1 <<< ITERATIONS_MOD) v hv
          have hany : ((newModLoop n p q w
              (modMul ((p - 1) * (q - 1)) (((p - 1) * (q - 1) + 4) >>> 3)
                (((p - 1) * (q - 1) + 4) >>> 3)) invN
              (mkYs sha session n w) 0 (1 <<< ITERATIONS_MOD) (1 <<< ITERATIONS_MOD)).2.1.any
              fun v => v < n) = true := by
            rw [List.any_eq_true]
            exact ⟨v, hv, by simpa using hvlt⟩
          rw [verifyModProof, if_neg h1, if_neg h2, if_pos hany]

theorem jacobiSym_zero_seven : jacobiSym ((0 : Nat) : Int) 7 = 0 := by
  rw [show (((0 : Nat) : Int)) = (0 : Int) from rfl]
  exact jacobiSym.zero_left (by norm_num)

theorem jacobiSym_zero_five : jacobiSym ((0 : Nat) : Int) 5 = 0 := by
  rw [show (((0 : Nat) : Int)) = (0 : Int) from rfl]
  exact jacobiSym.zero_left (by norm_num)

theorem findCombo_zero : findCombo 35 7 5 2 0 = none := by
  have h7 : isQuadraticResidue 0 7 = false := by
    rw [isQuadraticResidue, decide_eq_false_iff_not, jacobiSym_zero_seven]
    omega
  have hsub : modSub 35 0 0 = 0 := by decide
  have hmul : modMul 35 2 0 = 0 := by decide
  have hmul2 : modMul 35 2 (modSub 35 0 0) = 0 := by decide
  rw [findCombo, hsub, hmul]
  simp [h7]

theorem newModLoop_zero35 (expo invN : Nat) :
    ∀ (k i a b : Nat),
      newModLoop 35 7 5 2 expo invN (List.replicate k 0) i a b
        = (List.replicate k 0, List.replicate k 0, a, b)
  | 0, _, _, _ => rfl
  | k + 1, i, a, b => by
      rw [List.replicate_succ, newModLoop, findCombo_zero,
        newModLoop_zero35 expo invN k (i + 1) a b]

theorem newModProof_zero35 :
    newModProof constZeroDigest [] 35 7 5 2 = some pfZero35 := by
  rw [newModProof_some constZeroDigest [] 35 7 5 2 11 (by decide)]
  rw [mkYs, mkYsGo_constZero, newModLoop_zero35]
  decide

theorem verifyModProof_rejects_newModProof_witness :
    verifyModProof constZeroDigest [] [] 35 pfZero35 = false :=
  verifyModProof_rejects_newModProof constZeroDigest constZeroDigest [] [] [] 35 7 5 2
    pfZero35 (by norm_num) newModProof_zero35

theorem isQuadraticResidue_pfNine : isQuadraticResidue pfNine.w 9 = false := by
  rw [show pfNine.w = 10 from rfl, isQuadraticResidue, decide_eq_false_iff_not]
  rw [show ((10 : Nat) : Int) = (10 : Int) from rfl]
  rw [jacobiSym.mod_left]
  norm_num [jacobiSym.one_left]

theorem verifyModProof_accepts_pfNine :
    verifyModProof constZeroDigest [] mrRandsNine 9 pfNine = true := by
  rw [verifyModProof, if_neg (by rw [isQuadraticResidue_pfNine]; exact Bool.false_ne_true)]
  decide

/-- C5 counterexample: the verifier accepts this instance although its
`w` has Jacobi symbol 1 mod `n` — it is not a quadratic non-residue — so
"verify returns false unless w is a quadratic non-residue" fails as
stated. -/
theorem verifyModProof_counterexample :
    verifyModProof constZeroDigest [] mrRandsNine 9 pfNine = true ∧
    jacobiSym (pfNine.w : Int) 9 ≠ -1 := by
  refine ⟨verifyModProof_accepts_pfNine, ?_⟩
  rw [show pfNine.w = 10 from rfl]
  rw [show ((10 : Nat) : Int) = (10 : Int) from rfl, jacobiSym.mod_left]
  norm_num [jacobiSym.one_left]

/-- C5 (amended): ProofMod::verify returns false unless `n` is odd, `n`
is not probably prime, `w ≥ n` with `w` NOT a quadratic non-residue (the
source's check is inverted: it demands Jacobi symbol `≥ 0`), every `z_i`
and every `x_i` is at least `n` (also inverted), and `a` and `b` are
each exactly 81 bits wide. -/
theorem verifyModProof_necessary_conditions (sha : List Nat → List Nat)
    (session mrRands : List Nat) (n : Nat) (pf : ProofModS)
    (h : verifyModProof sha session mrRands n pf = true) :
    n.testBit 0 = true ∧
    probablyPrimeMillerRabin n (mrBases mrRands) = false ∧
    n ≤ pf.w ∧
    ¬jacobiSym (pf.w : Int) n < 0 ∧
    (∀ v ∈ pf.z, n ≤ v) ∧
    (∀ v ∈ pf.x, n ≤ v) ∧
    bitLen pf.a = ITERATIONS_MOD + 1 ∧
    bitLen pf.b = ITERATIONS_MOD + 1 := by
  rw [verifyModProof] at h
  by_cases h1 : isQuadraticResidue pf.w n
  · rw [if_pos h1] at h
    cases h
  rw [if_neg h1] at h
  by_cases h2 : pf.w < n
  · rw [if_pos h2] at h
    cases h
  rw [if_neg h2] at h
  by_cases h3 : (pf.z.any fun v => v < n) = true
  · rw [if_pos h3] at h
    cases h
  rw [if_neg h3] at h
  by_cases h4 : (pf.x.any fun v => v < n) = true
  · rw [if_pos h4] at h
    cases h
  rw [if_neg h4] at h
  by_cases h5 : bitLen pf.a ≠ ITERATIONS_MOD + 1
  · rw [if_pos h5] at h
    cases h
  rw [if_neg h5] at h
  by_cases h6 : bitLen pf.b ≠ ITERATIONS_MOD + 1
  · rw [if_pos h6] at h
    cases h
  rw [if_neg h6] at h
  by_cases h7 : ¬n.testBit 0 = true
  · rw [if_pos h7] at h
    cases h
  rw [if_neg h7] at h
  by_cases h8 : probablyPrimeMillerRabin n (mrBases mrRands) = true
  · rw [if_pos h8] at h
    cases h
  rw [isQuadraticResidue] at h1
  simp only [decide_eq_true_eq] at h1
  have hz : ∀ v ∈ pf.z, n ≤ v := by
    intro v hv
    by_contra hlt
    exact h3 (List.any_eq_true.mpr ⟨v, hv, by simp only [decide_eq_true_eq]; omega⟩)
  have hx : ∀ v ∈ pf.x, n ≤ v := by
    intro v hv
    by_contra hlt
    exact h4 (List.any_eq_true.mpr ⟨v, hv, by simp only [decide_eq_true_eq]; omega⟩)
  refine ⟨by simpa using h7, by simpa using h8, by omega, h1, hz, hx, by omega, by omega⟩

theorem verifyModProof_necessary_conditions_witness :
    Nat.testBit 9 0 = true ∧
    probablyPrimeMillerRabin 9 (mrBases mrRandsNine) = false ∧
    9 ≤ pfNine.w ∧
    ¬jacobiSym (pfNine.w : Int) 9 < 0 ∧
    (∀ v ∈ pfNine.z, 9 ≤ v) ∧
    (∀ v ∈ pfNine.x, 9 ≤ v) ∧
    bitLen pfNine.a = ITERATIONS_MOD + 1 ∧
    bitLen pfNine.b = ITERATIONS_MOD + 1 :=
  verifyModProof_necessary_conditions constZeroDigest [] mrRandsNine 9 pfNine
    verifyModProof_accepts_pfNine

theorem one_add_mul_pow_modEq (n k : Nat) : (n + 1) ^ k ≡ 1 + k * n [MOD n ^ 2] := by
  induction k with
  | zero => simpa using Nat.ModEq.refl 1
  | succ k ih =>
      have h2 : k * n ^ 2 ≡ 0 [MOD n ^ 2] := Nat.modEq_zero_iff_dvd.mpr (dvd_mul_left _ _)
      calc (n + 1) ^ (k + 1) = (n + 1) ^ k * (n + 1) := by ring
      _ ≡ (1 + k * n) * (n + 1) [MOD n ^ 2] := ih.mul_right _
      _ = 1 + (k + 1) * n + k * n ^ 2 := by ring
      _ ≡ 1 + (k + 1) * n + 0 [MOD n ^ 2] := Nat.ModEq.add_left _ h2
      _ = 1 + (k + 1) * n := by ring

theorem one_add_mul_mod_sq {n : Nat} (hn : 2 ≤ n) (t : Nat) :
    (1 + t * n) % n ^ 2 = 1 + t % n * n := by
  have hmm : t * n % (n * n) = t % n * n := Nat.mul_mod_mul_right n t n
  have ht : t % n < n := Nat.mod_lt t (by omega)
  have hb : (n - 1) * n + n = n * n := by
    have hsub : n - 1 + 1 = n := by omega
    calc (n - 1) * n + n = (n - 1 + 1) * n := by ring
    _ = n * n := by rw [hsub]
  have hle : t % n * n ≤ (n - 1) * n := Nat.mul_le_mul_right n (by omega)
  have hlt1 : 1 + t % n * n < n * n := by omega
  have hme : (1 + t * n) % n ^ 2 = (1 + t % n * n) % n ^ 2 := by
    apply Nat.ModEq.add_left
    rw [Nat.ModEq, pow_two, hmm, Nat.mod_eq_of_lt (by omega : t % n * n < n * n)]
  rw [hme, pow_two, Nat.mod_eq_of_lt hlt1]

theorem pow_phi_sq_modEq {p r : Nat} (hp : p.Prime) (hr : Nat.Coprime r p) (c : Nat)
    (hdvd : p * (p - 1) ∣ c) : r ^ c ≡ 1 [MOD p ^ 2] := by
  obtain ⟨d, rfl⟩ := hdvd
  have htot : Nat.totient (p ^ 2) = p * (p - 1) := by
    rw [Nat.totient_prime_pow hp (by norm_num : 0 < 2)]
    norm_num
  have hcop : Nat.Coprime r (p ^ 2) := hr.pow_right 2
  have heuler := Nat.ModEq.pow_totient hcop
  rw [htot] at heuler
  calc r ^ (p * (p - 1) * d) = (r ^ (p * (p - 1))) ^ d := by rw [← pow_mul]
  _ ≡ 1 ^ d [MOD p ^ 2] := heuler.pow d
  _ = 1 := one_pow d

theorem r_pow_n_lambda {p q r : Nat} (hp : p.Prime) (hq : q.Prime) (hne : p ≠ q)
    (hr : Nat.Coprime r (p * q)) :
    r ^ (p * q * Nat.lcm (p - 1) (q - 1)) ≡ 1 [MOD (p * q) ^ 2] := by
  have hcpq : Nat.Coprime (p ^ 2) (q ^ 2) :=
    Nat.Coprime.pow 2 2 ((Nat.coprime_primes hp hq).mpr hne)
  have hrp : Nat.Coprime r p := Nat.Coprime.coprime_dvd_right (dvd_mul_right p q) hr
  have hrq : Nat.Coprime r q := Nat.Coprime.coprime_dvd_right (dvd_mul_left q p) hr
  have hdp : p * (p - 1) ∣ p * q * Nat.lcm (p - 1) (q - 1) := by
    obtain ⟨c, hc⟩ := Nat.dvd_lcm_left (p - 1) (q - 1)
    exact ⟨q * c, by rw [hc]; ring⟩
  have hdq : q * (q - 1) ∣ p * q * Nat.lcm (p - 1) (q - 1) := by
    obtain ⟨c, hc⟩ := Nat.dvd_lcm_right (p - 1) (q - 1)
    exact ⟨p * c, by rw [hc]; ring⟩
  have h1 := pow_phi_sq_modEq hp hrp _ hdp
  have h2 := pow_phi_sq_modEq hq hrq _ hdq
  have hcomb := (Nat.modEq_and_modEq_iff_modEq_mul hcpq).mp ⟨h1, h2⟩
  rwa [← mul_pow] at hcomb

theorem lambda_coprime_n {p q pp qq : Nat} (hp : p.Prime) (hq : q.Prime)
    (hpp : pp.Prime) (_hqq : qq.Prime) (hps : p = 2 * pp + 1) (hqs : q = 2 * qq + 1)
    (hlt : q < p) (hlt2 : p < 2 * q) :
    Nat.Coprime (Nat.lcm (p - 1) (q - 1)) (p * q) := by
  have hpp2 := hpp.two_le
  have hqq2 := _hqq.two_le
  have hl : Nat.lcm (p - 1) (q - 1) ∣ (p - 1) * (q - 1) :=
    Nat.lcm_dvd (dvd_mul_right _ _) (dvd_mul_left _ _)
  have hnotp : ¬p ∣ Nat.lcm (p - 1) (q - 1) := by
    intro hdvd
    rcases (Nat.Prime.dvd_mul hp).mp (hdvd.trans hl) with h | h
    · exact absurd (Nat.le_of_dvd (by omega) h) (by omega)
    · exact absurd (Nat.le_of_dvd (by omega) h) (by omega)
  have hnotq : ¬q ∣ Nat.lcm (p - 1) (q - 1) := by
    intro hdvd
    rcases (Nat.Prime.dvd_mul hq).mp (hdvd.trans hl) with h | h
    · rw [show p - 1 = 2 * pp by omega] at h
      rcases (Nat.Prime.dvd_mul hq).mp h with h2 | h2
      · exact absurd (Nat.le_of_dvd (by norm_num) h2) (by omega)
      · have : q = pp := (Nat.prime_dvd_prime_iff_eq hq hpp).mp h2
        omega
    · exact absurd (Nat.le_of_dvd (by omega) h) (by omega)
  have h1 : Nat.Coprime p (Nat.lcm (p - 1) (q - 1)) :=
    (Nat.Prime.coprime_iff_not_dvd hp).mpr hnotp
  have h2 : Nat.Coprime q (Nat.lcm (p - 1) (q - 1)) :=
    (Nat.Prime.coprime_iff_not_dvd hq).mpr hnotq
  exact Nat.Coprime.mul_right h1.symm h2.symm

theorem coprime_of_modEq {a b n : Nat} (h : a ≡ b [MOD n]) (hb : Nat.Coprime b n) :
    Nat.Coprime a n := by
  rw [Nat.Coprime] at hb ⊢
  rw [Nat.gcd_comm a n, Nat.gcd_rec n a]
  rw [Nat.ModEq] at h
  rw [h, ← Nat.gcd_rec n b, ← Nat.gcd_comm b n]
  exact hb

theorem modInverse_eq_some {n a : Nat} (hn : 1 < n) (h : Nat.Coprime a n) :
    ∃ y, modInverse n a = some y ∧ (a * y) % n = 1 := by
  haveI : NeZero n := ⟨by omega⟩
  haveI : Fact (1 < n) := ⟨hn⟩
  set y0 := ((a : ZMod n)⁻¹).val with hy0
  have hy0lt : y0 < n := ZMod.val_lt _
  have hprop : (a * y0) % n = 1 := by
    have hcast : ((a * y0 : Nat) : ZMod n) = (a : ZMod n) * ((a : ZMod n))⁻¹ := by
      push_cast
      rw [hy0, ZMod.natCast_val, ZMod.cast_id]
    have hone : ((a : ZMod n) * ((a : ZMod n))⁻¹) = 1 := ZMod.coe_mul_inv_eq_one a h
    have hval := congrArg ZMod.val (hcast.trans hone)
    rw [ZMod.val_natCast, ZMod.val_one] at hval
    exact hval
  cases hfind : (List.range n).find? fun y => (a * y) % n == 1 % n with
  | none =>
      exfalso
      have := List.find?_eq_none.mp hfind y0 (List.mem_range.mpr hy0lt)
      rw [Nat.mod_eq_of_lt hn] at this
      simp [hprop] at this
  | some y =>
      refine ⟨y, hfind, ?_⟩
      have := List.find?_some hfind
      rw [Nat.mod_eq_of_lt hn] at this
      simpa using this

/-- The core Paillier decryption identity: for a key assembled from two
same-size safe primes and any ciphertext congruent to
`(n+1)^m * r^n mod n^2` with `r` coprime to `n`, `decrypt` succeeds and
returns `m mod n`. -/
theorem decrypt_of_form {p q pp qq : Nat} (hp : p.Prime) (hq : q.Prime)
    (hpp : pp.Prime) (hqq : qq.Prime) (hps : p = 2 * pp + 1) (hqs : q = 2 * qq + 1)
    (hlt : q < p) (hlt2 : p < 2 * q) (c m r : Nat)
    (hc : c ≡ (p * q + 1) ^ m * r ^ (p * q) [MOD (p * q) ^ 2])
    (hclt : c < (p * q) ^ 2) (hr : Nat.Coprime r (p * q)) :
    decrypt (mkPrivKey p q) c = .ok (m % (p * q)) := by
  have hpp2 := hpp.two_le
  have hqq2 := hqq.two_le
  set n := p * q with hn
  have hn25 : 25 ≤ n := by
    calc (25 : Nat) = 5 * 5 := by norm_num
    _ ≤ p * q := Nat.mul_le_mul (by omega) (by omega)
  have hpqne : p ≠ q := by omega
  set lam := Nat.lcm (p - 1) (q - 1) with hlam
  have hlamcop : Nat.Coprime lam n := lambda_coprime_n hp hq hpp hqq hps hqs hlt hlt2
  have hX : Nat.Coprime ((n + 1) ^ m * r ^ n) n := by
    have h1 : Nat.Coprime (n + 1) n := by
      rw [Nat.add_comm, Nat.coprime_add_self_left]
      exact Nat.coprime_one_left n
    exact Nat.Coprime.mul (h1.pow_left m) (hr.pow_left n)
  have hcn : Nat.Coprime c n :=
    coprime_of_modEq (Nat.ModEq.of_dvd (dvd_pow_self n (by norm_num)) hc) hX
  have hcn2 : Nat.Coprime c (n * n) := Nat.Coprime.mul_right hcn hcn
  have hclam : modPow (n * n) c lam = 1 + m * lam % n * n := by
    have h1 : c ^ lam ≡ ((n + 1) ^ m * r ^ n) ^ lam [MOD n ^ 2] := hc.pow lam
    have h2 : ((n + 1) ^ m * r ^ n) ^ lam = (n + 1) ^ (m * lam) * r ^ (n * lam) := by
      rw [mul_pow, ← pow_mul, ← pow_mul]
    have h3 : r ^ (n * lam) ≡ 1 [MOD n ^ 2] := r_pow_n_lambda hp hq hpqne hr
    have h4 : (n + 1) ^ (m * lam) ≡ 1 + m * lam * n [MOD n ^ 2] :=
      one_add_mul_pow_modEq n (m * lam)
    have h5 : c ^ lam ≡ 1 + m * lam * n [MOD n ^ 2] := by
      calc c ^ lam ≡ (n + 1) ^ (m * lam) * r ^ (n * lam) [MOD n ^ 2] := by
            rw [← h2]
            exact h1
      _ ≡ (1 + m * lam * n) * 1 [MOD n ^ 2] := Nat.ModEq.mul h4 h3
      _ = 1 + m * lam * n := by ring
    show c ^ lam % (n * n) = _
    rw [← pow_two]
    rw [Nat.ModEq] at h5
    rw [h5, one_add_mul_mod_sq (by omega)]
  have hglam : modPow (n * n) (n + 1) lam = 1 + lam % n * n := by
    have h4 := one_add_mul_pow_modEq n lam
    rw [Nat.ModEq] at h4
    show (n + 1) ^ lam % (n * n) = _
    rw [← pow_two, h4, one_add_mul_mod_sq (by omega)]
  have hlcv : (modPow (n * n) c lam - 1) / n = m * lam % n := by
    rw [hclam, Nat.add_sub_cancel_left]
    exact Nat.mul_div_cancel _ (by omega : 0 < n)
  have hlgv : (modPow (n * n) (n + 1) lam - 1) / n = lam % n := by
    rw [hglam, Nat.add_sub_cancel_left]
    exact Nat.mul_div_cancel _ (by omega : 0 < n)
  have hlamod : Nat.Coprime (lam % n) n := by
    rw [Nat.Coprime] at hlamcop ⊢
    rw [show Nat.gcd (lam % n) n = Nat.gcd n lam from (Nat.gcd_rec n lam).symm,
      Nat.gcd_comm n lam]
    exact hlamcop
  obtain ⟨y, hy_eq, hy_prop⟩ := modInverse_eq_some (show (1 : Nat) < n by omega) hlamod
  have hly : lam % n * y ≡ 1 [MOD n] := by
    show (lam % n * y) % n = 1 % n
    rw [Nat.mod_eq_of_lt (show (1 : Nat) < n by omega), hy_prop]
  have hfinal : modMul n (m * lam % n) y = m % n := by
    show (m * lam % n * y) % n = m % n
    have hchain : m * lam % n * y ≡ m * 1 [MOD n] := by
      calc m * lam % n * y ≡ m * lam * y [MOD n] :=
            Nat.ModEq.mul_right y (Nat.mod_modEq (m * lam) n)
      _ = m * (lam * y) := by ring
      _ ≡ m * (lam % n * y) [MOD n] :=
            Nat.ModEq.mul_left m (Nat.ModEq.mul_right y (Nat.mod_modEq lam n).symm)
      _ ≡ m * 1 [MOD n] := Nat.ModEq.mul_left m hly
    rw [Nat.ModEq] at hchain
    rw [hchain, mul_one]
  have hdec : decrypt (mkPrivKey p q) c =
      (if n * n ≤ c then Except.error CryptoErr.messageTooLong
       else if 1 < Nat.gcd c (n * n) then Except.error CryptoErr.messageMalformed
       else match modInverse n ((modPow (n * n) (n + 1) lam - 1) / n) with
         | none => Except.error (CryptoErr.common CommonErr.divisionByZero)
         | some inv => Except.ok (modMul n ((modPow (n * n) c lam - 1) / n) inv)) := rfl
  have hclt2 : c < n * n := by
    rw [pow_two] at hclt
    exact hclt
  rw [hdec, if_neg (Nat.not_le.mpr hclt2),
    if_neg (show ¬1 < Nat.gcd c (n * n) by
      rw [Nat.coprime_iff_gcd_eq_one] at hcn2
      omega),
    hlgv, hy_eq]
  show Except.ok (modMul n ((modPow (n * n) c lam - 1) / n) y) = Except.ok (m % n)
  rw [hlcv, hfinal]

/-- C2: Paillier correctness.  For a key built from an ordered pair of
same-size safe primes (the postcondition of PrivateKey::generate) and any
choice of the sampled coprime randomness, `decrypt` inverts `encrypt` on
every plaintext `m < n`; `homo_add` of two ciphertexts decrypts to
`(a + b) mod n`; and `homo_mult` by `k` decrypts to `(k * a) mod n`. -/
theorem paillier_correctness (p q pp qq m a b k r ra rb : Nat)
    (hp : p.Prime) (hq : q.Prime) (hpp : pp.Prime) (hqq : qq.Prime)
    (hps : p = 2 * pp + 1) (hqs : q = 2 * qq + 1) (hlt : q < p) (hlt2 : p < 2 * q)
    (hm : m < p * q) (ha : a < p * q) (hb : b < p * q)
    (hr : Nat.Coprime r (p * q)) (hra : Nat.Coprime ra (p * q))
    (hrb : Nat.Coprime rb (p * q)) :
    ((encrypt (p * q) m r).bind fun em =>
        decrypt (mkPrivKey p q) em.cypher) = Except.ok m ∧
    ((encrypt (p * q) a ra).bind fun ea => (encrypt (p * q) b rb).bind fun eb =>
        decrypt (mkPrivKey p q) (homoAdd (p * q) ea.cypher eb.cypher)) =
      Except.ok ((a + b) % (p * q)) ∧
    ((encrypt (p * q) a ra).bind fun ea =>
        decrypt (mkPrivKey p q) (homoMult (p * q) k ea.cypher)) =
      Except.ok (k * a % (p * q)) := by
  set n := p * q with hn
  have hnpos : 0 < n := by
    have := hp.two_le
    have := hq.two_le
    exact Nat.mul_pos (by omega) (by omega)
  have hn2pos : 0 < n ^ 2 := by
    rw [pow_two]
    exact Nat.mul_pos hnpos hnpos
  have henc : ∀ m' r', m' < n → encrypt n m' r' =
      Except.ok ⟨modMul (n * n) (modPow (n * n) (n + 1) m') (modPow (n * n) r' n), r'⟩ := by
    intro m' r' hm'
    have he : encrypt n m' r' =
        if n ≤ m' then Except.error CryptoErr.messageTooLong
        else Except.ok ⟨modMul (n * n) (modPow (n * n) (n + 1) m') (modPow (n * n) r' n), r'⟩ :=
      rfl
    rw [he, if_neg (Nat.not_le.mpr hm')]
  have hcy : ∀ m' r', modMul (n * n) (modPow (n * n) (n + 1) m') (modPow (n * n) r' n) =
      ((n + 1) ^ m' * r' ^ n) % n ^ 2 := by
    intro m' r'
    show (n + 1) ^ m' % (n * n) * (r' ^ n % (n * n)) % (n * n) = _
    rw [← Nat.mul_mod, pow_two]
  refine ⟨?_, ?_, ?_⟩
  · rw [henc m r hm, hcy]
    show decrypt (mkPrivKey p q) (((n + 1) ^ m * r ^ n) % n ^ 2) = Except.ok m
    have h1 := decrypt_of_form hp hq hpp hqq hps hqs hlt hlt2
      (((n + 1) ^ m * r ^ n) % n ^ 2) m r (Nat.mod_modEq _ _) (Nat.mod_lt _ hn2pos) hr
    rw [Nat.mod_eq_of_lt hm] at h1
    exact h1
  · rw [henc a ra ha, henc b rb hb, hcy, hcy]
    show decrypt (mkPrivKey p q)
        (homoAdd n (((n + 1) ^ a * ra ^ n) % n ^ 2) (((n + 1) ^ b * rb ^ n) % n ^ 2)) =
      Except.ok ((a + b) % n)
    have hadd : homoAdd n (((n + 1) ^ a * ra ^ n) % n ^ 2) (((n + 1) ^ b * rb ^ n) % n ^ 2) =
        (((n + 1) ^ a * ra ^ n) % n ^ 2 * (((n + 1) ^ b * rb ^ n) % n ^ 2)) % n ^ 2 := by
      show _ % n ^ 2 % n ^ 2 * (_ % n ^ 2 % n ^ 2) % n ^ 2 = _
      rw [Nat.mod_mod_of_dvd _ dvd_rfl, Nat.mod_mod_of_dvd _ dvd_rfl]
    have hc2 : homoAdd n (((n + 1) ^ a * ra ^ n) % n ^ 2) (((n + 1) ^ b * rb ^ n) % n ^ 2) ≡
        (n + 1) ^ (a + b) * (ra * rb) ^ n [MOD n ^ 2] := by
      rw [hadd]
      calc (((n + 1) ^ a * ra ^ n) % n ^ 2 * (((n + 1) ^ b * rb ^ n) % n ^ 2)) % n ^ 2 ≡
            ((n + 1) ^ a * ra ^ n) % n ^ 2 * (((n + 1) ^ b * rb ^ n) % n ^ 2) [MOD n ^ 2] :=
          Nat.mod_modEq _ _
      _ ≡ ((n + 1) ^ a * ra ^ n) * ((n + 1) ^ b * rb ^ n) [MOD n ^ 2] :=
          Nat.ModEq.mul (Nat.mod_modEq _ _) (Nat.mod_modEq _ _)
      _ = (n + 1) ^ (a + b) * (ra * rb) ^ n := by
          rw [pow_add, mul_pow]
          ring
    have hcl2 : homoAdd n (((n + 1) ^ a * ra ^ n) % n ^ 2) (((n + 1) ^ b * rb ^ n) % n ^ 2) <
        n ^ 2 := by
      show _ % n ^ 2 < n ^ 2
      exact Nat.mod_lt _ hn2pos
    exact decrypt_of_form hp hq hpp hqq hps hqs hlt hlt2 _ (a + b) (ra * rb) hc2 hcl2
      (hra.mul hrb)
  · rw [henc a ra ha, hcy]
    show decrypt (mkPrivKey p q) (homoMult n k (((n + 1) ^ a * ra ^ n) % n ^ 2)) =
      Except.ok (k * a % n)
    have hXa : ((n + 1) ^ a * ra ^ n) ^ (k % n) =
        (n + 1) ^ (a * (k % n)) * (ra ^ (k % n)) ^ n := by
      rw [mul_pow, ← pow_mul, ← pow_mul, ← pow_mul, Nat.mul_comm n (k % n)]
    have hmul : homoMult n k (((n + 1) ^ a * ra ^ n) % n ^ 2) =
        (((n + 1) ^ a * ra ^ n) % n ^ 2) ^ (k % n) % n ^ 2 := by
      show (_ % n ^ 2 % n ^ 2) ^ (k % n) % n ^ 2 = _
      rw [Nat.mod_mod_of_dvd _ dvd_rfl]
    have hc3 : homoMult n k (((n + 1) ^ a * ra ^ n) % n ^ 2) ≡
        (n + 1) ^ (a * (k % n)) * (ra ^ (k % n)) ^ n [MOD n ^ 2] := by
      rw [hmul, ← hXa]
      exact (Nat.mod_modEq _ _).trans ((Nat.mod_modEq _ _).pow _)
    have hcl3 : homoMult n k (((n + 1) ^ a * ra ^ n) % n ^ 2) < n ^ 2 := by
      show _ % n ^ 2 < n ^ 2
      exact Nat.mod_lt _ hn2pos
    have h3 := decrypt_of_form hp hq hpp hqq hps hqs hlt hlt2 _ (a * (k % n)) (ra ^ (k % n))
      hc3 hcl3 (Nat.Coprime.pow_left _ hra)
    have hmod : a * (k % n) % n = k * a % n := by
      have hch : a * (k % n) ≡ k * a [MOD n] := by
        calc a * (k % n) ≡ a * k [MOD n] := Nat.ModEq.mul_left a (Nat.mod_modEq k n)
        _ = k * a := Nat.mul_comm a k
      exact hch
    rw [hmod] at h3
    exact h3

theorem paillier_correctness_witness :
    ((encrypt (7 * 5) 4 2).bind fun em => decrypt (mkPrivKey 7 5) em.cypher) =
      Except.ok 4 ∧
    ((encrypt (7 * 5) 4 2).bind fun ea => (encrypt (7 * 5) 3 3).bind fun eb =>
        decrypt (mkPrivKey 7 5) (homoAdd (7 * 5) ea.cypher eb.cypher)) =
      Except.ok ((4 + 3) % (7 * 5)) ∧
    ((encrypt (7 * 5) 4 2).bind fun ea =>
        decrypt (mkPrivKey 7 5) (homoMult (7 * 5) 6 ea.cypher)) =
      Except.ok (6 * 4 % (7 * 5)) :=
  paillier_correctness 7 5 3 2 4 4 3 6 2 2 3 (by norm_num) (by norm_num) (by norm_num)
    (by norm_num) (by decide) (by decide) (by decide) (by decide) (by decide) (by decide)
    (by decide) (by decide) (by decide) (by decide)

/-- C9: Paillier error conditions.  `encrypt` fails with MessageTooLong
exactly when `n ≤ m`; `decrypt` fails with MessageTooLong when `n² ≤ c`,
fails with MessageMalformed when `c < n²` and `gcd(c, n²) > 1`, and
otherwise succeeds with the L-function decryption (the modular inverse
exists for any key built from an ordered pair of safe primes). -/
theorem paillier_error_conditions (p q pp qq c m r : Nat)
    (hp : p.Prime) (hq : q.Prime) (hpp : pp.Prime) (hqq : qq.Prime)
    (hps : p = 2 * pp + 1) (hqs : q = 2 * qq + 1) (hlt : q < p) (hlt2 : p < 2 * q) :
    (p * q ≤ m → encrypt (p * q) m r = Except.error CryptoErr.messageTooLong) ∧
    (m < p * q → ∃ em, encrypt (p * q) m r = Except.ok em) ∧
    (p * q * (p * q) ≤ c →
      decrypt (mkPrivKey p q) c = Except.error CryptoErr.messageTooLong) ∧
    (c < p * q * (p * q) → 1 < Nat.gcd c (p * q * (p * q)) →
      decrypt (mkPrivKey p q) c = Except.error CryptoErr.messageMalformed) ∧
    (c < p * q * (p * q) → Nat.gcd c (p * q * (p * q)) = 1 →
      ∃ v, decrypt (mkPrivKey p q) c = Except.ok v) := by
  have hpp2 := hpp.two_le
  have hqq2 := hqq.two_le
  set n := p * q with hn
  have hn25 : 25 ≤ n := by
    calc (25 : Nat) = 5 * 5 := by norm_num
    _ ≤ p * q := Nat.mul_le_mul (by omega) (by omega)
  set lam := Nat.lcm (p - 1) (q - 1) with hlam
  have hlamcop : Nat.Coprime lam n := lambda_coprime_n hp hq hpp hqq hps hqs hlt hlt2
  have henc : ∀ m', encrypt n m' r =
      (if n ≤ m' then Except.error CryptoErr.messageTooLong
       else Except.ok ⟨modMul (n * n) (modPow (n * n) (n + 1) m') (modPow (n * n) r n), r⟩) :=
    fun _ => rfl
  have hdec : decrypt (mkPrivKey p q) c =
      (if n * n ≤ c then Except.error CryptoErr.messageTooLong
       else if 1 < Nat.gcd c (n * n) then Except.error CryptoErr.messageMalformed
       else match modInverse n ((modPow (n * n) (n + 1) lam - 1) / n) with
         | none => Except.error (CryptoErr.common CommonErr.divisionByZero)
         | some inv => Except.ok (modMul n ((modPow (n * n) c lam - 1) / n) inv)) := rfl
  refine ⟨?_, ?_, ?_, ?_, ?_⟩
  · intro h
    rw [henc, if_pos h]
  · intro h
    rw [henc, if_neg (Nat.not_le.mpr h)]
    exact ⟨_, rfl⟩
  · intro h
    rw [hdec, if_pos h]
  · intro h1 h2
    rw [hdec, if_neg (Nat.not_le.mpr h1), if_pos h2]
  · intro h1 h2
    have hglam : modPow (n * n) (n + 1) lam = 1 + lam % n * n := by
      have h4 := one_add_mul_pow_modEq n lam
      rw [Nat.ModEq] at h4
      show (n + 1) ^ lam % (n * n) = _
      rw [← pow_two, h4, one_add_mul_mod_sq (by omega)]
    have hlgv : (modPow (n * n) (n + 1) lam - 1) / n = lam % n := by
      rw [hglam, Nat.add_sub_cancel_left]
      exact Nat.mul_div_cancel _ (by omega : 0 < n)
    have hlamod : Nat.Coprime (lam % n) n := by
      rw [Nat.Coprime] at hlamcop ⊢
      rw [show Nat.gcd (lam % n) n = Nat.gcd n lam from (Nat.gcd_rec n lam).symm,
        Nat.gcd_comm n lam]
      exact hlamcop
    obtain ⟨y, hy_eq, _⟩ := modInverse_eq_some (show (1 : Nat) < n by omega) hlamod
    rw [hdec, if_neg (Nat.not_le.mpr h1), if_neg (by omega), hlgv, hy_eq]
    exact ⟨_, rfl⟩

theorem paillier_error_conditions_witness :
    ((7 * 5 ≤ 40 → encrypt (7 * 5) 40 2 = Except.error CryptoErr.messageTooLong) ∧
    (40 < 7 * 5 → ∃ em, encrypt (7 * 5) 40 2 = Except.ok em) ∧
    (7 * 5 * (7 * 5) ≤ 1300 →
      decrypt (mkPrivKey 7 5) 1300 = Except.error CryptoErr.messageTooLong) ∧
    (1300 < 7 * 5 * (7 * 5) → 1 < Nat.gcd 1300 (7 * 5 * (7 * 5)) →
      decrypt (mkPrivKey 7 5) 1300 = Except.error CryptoErr.messageMalformed) ∧
    (1300 < 7 * 5 * (7 * 5) → Nat.gcd 1300 (7 * 5 * (7 * 5)) = 1 →
      ∃ v, decrypt (mkPrivKey 7 5) 1300 = Except.ok v)) ∧
    ((7 * 5 ≤ 2 → encrypt (7 * 5) 2 3 = Except.error CryptoErr.messageTooLong) ∧
    (2 < 7 * 5 → ∃ em, encrypt (7 * 5) 2 3 = Except.ok em) ∧
    (7 * 5 * (7 * 5) ≤ 38 →
      decrypt (mkPrivKey 7 5) 38 = Except.error CryptoErr.messageTooLong) ∧
    (38 < 7 * 5 * (7 * 5) → 1 < Nat.gcd 38 (7 * 5 * (7 * 5)) →
      decrypt (mkPrivKey 7 5) 38 = Except.error CryptoErr.messageMalformed) ∧
    (38 < 7 * 5 * (7 * 5) → Nat.gcd 38 (7 * 5 * (7 * 5)) = 1 →
      ∃ v, decrypt (mkPrivKey 7 5) 38 = Except.ok v)) :=
  ⟨paillier_error_conditions 7 5 3 2 1300 40 2 (by norm_num) (by norm_num) (by norm_num)
    (by norm_num) (by decide) (by decide) (by decide) (by decide),
   paillier_error_conditions 7 5 3 2 38 2 3 (by norm_num) (by norm_num) (by norm_num)
    (by norm_num) (by decide) (by decide) (by decide) (by decide)⟩

end MpcCli
